import Mathlib

/-!
Shallow embedding of the `vcard` Go package (files `unmarshaler`/`marshaler`/
`schema`/`errors` of the snapshot under `src/unnamed`, package `vcard`):
a schema-driven codec between vCard text documents and Go aggregates
(structs with string fields, `map[string]string`, slices).

Modelling conventions:
* Go strings are `List Char` (`Str`).  All byte-index operations of the source
  (`s[lineLen:]`, `trimmed[:idx]`, `serField[1:]`) happen at rune boundaries on
  the inputs involved, so character-level `take`/`drop` is faithful.
* `unicode.IsLetter` / `unicode.IsSpace` are modelled on the ASCII range
  (`Char.isAlpha` and the ASCII whitespace set).  No claim or counterexample in
  this file depends on non-ASCII classification.
* Go `map[string]string` is an association list (`RawMap`) with
  overwrite-on-insert; iteration of a Go map is non-deterministic in order, so
  folds over Go maps are modelled in list order and every theorem proved about
  them is insensitive to that order (map contents are stated via `mapLookup`).
* `strings.Lines` yields each line including its terminating newline; the
  source advances through the input by accumulating `offset` and slicing
  (`s = s[offset:]`), which is modelled by `restAfterLine` (dropping exactly
  the first line).
-/

set_option linter.unusedVariables false

abbrev Str := List Char

/-- Go `unicode.IsSpace` restricted to the ASCII whitespace characters. -/
def goIsSpace (c : Char) : Bool :=
  c == ' ' || c == '\t' || c == '\n' || c == '\x0b' || c == '\x0c' || c == '\r'

/-- Go `unicode.IsLetter` restricted to ASCII letters. -/
def goIsLetter (c : Char) : Bool :=
  c.isAlpha

/-- Go `strings.TrimSpace`: drop whitespace from both ends. -/
def trimSpace (s : Str) : Str :=
  ((s.dropWhile goIsSpace).reverse.dropWhile goIsSpace).reverse

/-- The first line of a string, including its terminating newline if present
(the first element produced by Go `strings.Lines`). -/
def firstLine : Str → Str
  | [] => []
  | c :: rest => if c = '\n' then ['\n'] else c :: firstLine rest

/-- Everything after the first line; models the source's `s[lineLen:]` where
`lineLen` is the length of the first line. -/
def restAfterLine : Str → Str
  | [] => []
  | c :: rest => if c = '\n' then rest else restAfterLine rest

/-- Association list modelling Go `map[string]string`. -/
abbrev RawMap := List (Str × Str)

/-- Go map assignment `m[k] = v`: overwrite the existing entry or append. -/
def mapInsert : RawMap → Str → Str → RawMap
  | [], k, v => [(k, v)]
  | p :: rest, k, v => if p.1 = k then (k, v) :: rest else p :: mapInsert rest k v

/-- Go map read `m[k]`. -/
def mapLookup : RawMap → Str → Option Str
  | [], _ => none
  | p :: rest, k => if p.1 = k then some p.2 else mapLookup rest k

/-- The `Schema` struct of the package: a version string, the set of
recognized field names and the subset of required field names (Go
`map[string]struct` keys, modelled as lists whose order is irrelevant). -/
structure Schema where
  version : Str
  fields : List Str
  requiredFields : List Str
deriving DecidableEq

/-- Error domain of the decoder/encoder, one constructor per distinct
`vCardErrf`/`parsingErrf`/`leftTokensErrf` site relevant to the claims. -/
inductive VErr where
  | unexpectedEOF : VErr
  | headerMismatch (line : Str) : VErr
  | footerMismatch (line : Str) : VErr
  | badLine (line : Str) : VErr
  | versionMissing : VErr
  | schemaNotProvided (ver : Str) : VErr
  | docMissingRequired (field : Str) : VErr
  | nilMapTarget : VErr
  | mapValueUnsupported : VErr
  | structMissingRequired (field : Str) : VErr
  | leftoverTokens : VErr
  | encMissingRequired (field : Str) : VErr
  | fieldMarshalFailed (field : Str) (msg : Str) : VErr
  | fieldTypeUnsupported (field : Str) : VErr
  | mapValueNotMarshaler : VErr
  | sliceMember (idx : Nat) (e : VErr) : VErr
deriving DecidableEq

def expectedHeader : Str := "BEGIN:VCARD".toList

def expectedFooter : Str := "END:VCARD".toList

/-- `Decoder.decodeRecordHeader`: empty input is `ErrUnexpectedEOF`; the first
line, trimmed, must equal `BEGIN:VCARD`; on success exactly that line is
consumed. -/
def decodeRecordHeader (s : Str) : Except VErr Str :=
  if s = [] then .error .unexpectedEOF
  else if trimSpace (firstLine s) = expectedHeader then .ok (restAfterLine s)
  else .error (.headerMismatch (firstLine s))

/-- `Decoder.decodeRecordFooter`: symmetric to the header with `END:VCARD`. -/
def decodeRecordFooter (s : Str) : Except VErr Str :=
  if s = [] then .error .unexpectedEOF
  else if trimSpace (firstLine s) = expectedFooter then .ok (restAfterLine s)
  else .error (.footerMismatch (firstLine s))

theorem restAfterLine_length_lt (c : Char) (s : Str) :
    (restAfterLine (c :: s)).length < (c :: s).length := by
  induction s generalizing c with
  | nil => simp [restAfterLine]
  | cons d t ih =>
      simp only [restAfterLine]
      split
      · simp
      · exact Nat.lt_trans (ih d) (by simp)

/-- The field-line loop of `Decoder.decodeVCardFieldsIntoMap`: walk the lines
up to (and not including) the `END:VCARD` line, split each trimmed line at the
first non-letter character into key and raw value suffix, and accumulate a
last-write-wins `RawMap`.  Returns the map together with the remaining input
(starting at the footer line), i.e. the source's `m` and `s[offset:]`. -/
def parseFieldsFuel : Nat → Str → RawMap → Except VErr (RawMap × Str)
  | _, [], m => .ok (m, [])
  | 0, c :: cs, m => .ok (m, c :: cs)
  | fuel + 1, c :: cs, m =>
    let line := firstLine (c :: cs)
    let trimmed := trimSpace line
    if trimmed = expectedFooter then .ok (m, c :: cs)
    else
      match trimmed.findIdx? (fun ch => !(goIsLetter ch)) with
      | none => .error (.badLine line)
      | some idx =>
        let key := trimmed.take idx
        let value := trimmed.drop idx
        if key = [] ∨ value = [] then .error (.badLine line)
        else parseFieldsFuel fuel (restAfterLine (c :: cs)) (mapInsert m key value)

/-- The loop with its fuel instantiated so that the artificial out-of-fuel
case is unreachable (each iteration consumes at least one character). -/
def parseFields (s : Str) (m : RawMap) : Except VErr (RawMap × Str) :=
  parseFieldsFuel s.length s m

theorem parseFieldsFuel_irrel (f1 : Nat) :
    ∀ (f2 : Nat) (s : Str) (m : RawMap), s.length ≤ f1 → s.length ≤ f2 →
      parseFieldsFuel f1 s m = parseFieldsFuel f2 s m := by
  induction f1 with
  | zero =>
      intro f2 s m h1 _
      cases s with
      | nil => cases f2 <;> rfl
      | cons c cs => simp at h1
  | succ f ih =>
      intro f2 s m h1 h2
      cases s with
      | nil => cases f2 <;> rfl
      | cons c cs =>
          cases f2 with
          | zero => simp at h2
          | succ f2 =>
              simp only [parseFieldsFuel]
              split
              · rfl
              · split
                · rfl
                · split
                  · rfl
                  · apply ih
                    · exact Nat.le_of_lt_succ
                        (Nat.lt_of_lt_of_le (restAfterLine_length_lt c cs) (by simpa using h1))
                    · exact Nat.le_of_lt_succ
                        (Nat.lt_of_lt_of_le (restAfterLine_length_lt c cs) (by simpa using h2))

/-- The unfolding equation of the field-line loop on a non-empty input,
matching the source loop body literally. -/
theorem parseFields_cons (c : Char) (cs : Str) (m : RawMap) :
    parseFields (c :: cs) m =
      (let line := firstLine (c :: cs)
       let trimmed := trimSpace line
       if trimmed = expectedFooter then .ok (m, c :: cs)
       else
         match trimmed.findIdx? (fun ch => !(goIsLetter ch)) with
         | none => .error (.badLine line)
         | some idx =>
           let key := trimmed.take idx
           let value := trimmed.drop idx
           if key = [] ∨ value = [] then .error (.badLine line)
           else parseFields (restAfterLine (c :: cs)) (mapInsert m key value)) := by
  show parseFieldsFuel (cs.length + 1) (c :: cs) m = _
  simp only [parseFieldsFuel]
  split
  · rfl
  · split
    · rfl
    · split
      · rfl
      · exact parseFieldsFuel_irrel cs.length (restAfterLine (c :: cs)).length
          (restAfterLine (c :: cs)) _
          (Nat.le_of_lt_succ (restAfterLine_length_lt c cs)) (Nat.le_refl _)

def versionKey : Str := "VERSION".toList

/-- `Decoder.decodeVCardFieldsIntoMap`: parse the field lines, read the
`VERSION` entry (dropping its leading punctuation byte), resolve the schema
for that version among the decoder's registered schemas, and check that every
schema-required field key is present in the raw map.  The decoder's
`schemas map[string]Schema` (built by `NewDecoder`, which panics on duplicate
versions) is modelled as the original slice searched by version. -/
def decodeVCardFieldsIntoMap (schemas : List Schema) (s : Str) :
    Except VErr (RawMap × Schema × Str) :=
  match parseFields s [] with
  | .error e => .error e
  | .ok (m, rest) =>
    match mapLookup m versionKey with
    | none => .error .versionMissing
    | some v0 =>
      let ver := v0.drop 1
      match schemas.find? (fun sc => sc.version == ver) with
      | none => .error (.schemaNotProvided ver)
      | some schema =>
        match schema.requiredFields.find? (fun req => (mapLookup m req).isNone) with
        | some req => .error (.docMissingRequired req)
        | none => .ok (m, schema, rest)

/-- Field descriptor of a Go struct: its name and its `vCard:"..."` tag
(the empty tag means the field is untagged). -/
structure GoField where
  name : Str
  tag : Str
deriving DecidableEq

/-- The effective vCard key of a struct field: the tag when one is set,
otherwise the field name (source: `vCardName := field.Name; if tag != "" ...`). -/
def vCardName (f : GoField) : Str :=
  if f.tag = [] then f.name else f.tag

/-- A struct value all of whose fields are plain Go strings (the fragment of
struct targets the string-field claims are about), each paired with its
current string value. -/
structure GoStructStr where
  fields : List (GoField × Str)
deriving DecidableEq

/-- The per-field smart-string handling of `Decoder.fillStruct` for a string
field: with smart strings off the raw suffix is stored verbatim; with them on
one leading `:` is removed when present.  The parser guarantees the suffix is
non-empty, so the `serField[0]` byte access of the source cannot fault. -/
def fillStructField (smart : Bool) (serField : Str) : Str :=
  if !smart then serField
  else
    match serField with
    | [] => []
    | c :: rest => if c = ':' then rest else c :: rest

/-- `Decoder.fillStruct` on all-string structs: first fail if some
schema-required field matches no struct field (by name or rename tag), then
set every struct field whose vCard name is both a schema field and a key of
the raw map; all other fields are left untouched.  `fillStructEntry` is the
body of the source's per-field loop. -/
def fillStructEntry (smart : Bool) (m : RawMap) (schema : Schema) (fv : GoField × Str) :
    GoField × Str :=
  let nm := vCardName fv.1
  if nm ∈ schema.fields then
    match mapLookup m nm with
    | some serField => (fv.1, fillStructField smart serField)
    | none => fv
  else fv

def fillStruct (smart : Bool) (struc : GoStructStr) (m : RawMap) (schema : Schema) :
    Except VErr GoStructStr :=
  match schema.requiredFields.find?
      (fun req => !(struc.fields.any (fun fv => vCardName fv.1 == req))) with
  | some req => .error (.structMissingRequired req)
  | none => .ok ⟨struc.fields.map (fillStructEntry smart m schema)⟩

/-- The `map[string]string` case of `Decoder.fillMap`: build a fresh map
holding, for every schema field present in the raw map, its raw value suffix
verbatim (no smart-string handling exists on this path). -/
def fillMapStringCase (m : RawMap) (schema : Schema) : RawMap :=
  schema.fields.foldl
    (fun acc f =>
      match mapLookup m f with
      | some v => mapInsert acc f v
      | none => acc) []

/-- `Decoder.fillMap` for a string-keyed, string-valued target map: the switch
sets the caller's map to `fillMapStringCase`, after which control falls
through to the function's trailing unconditional
`return vCardErrf("unable to decode into a map where value has unsupported type ...")`,
so a non-nil error is returned even on this supported path. -/
def fillMap (m : RawMap) (schema : Schema) : RawMap × Option VErr :=
  (fillMapStringCase m schema, some .mapValueUnsupported)

/-- Target state of a `map[string]string` decode: whether the caller passed a
nil map, and its entries. -/
structure MapTarget where
  isNil : Bool
  entries : RawMap
deriving DecidableEq

/-- `Decoder.decodeMap` (string-valued maps): nil check, header check, field
parse over the full record text `data` (note: the source passes `data`, not
the header-stripped remainder, so the `BEGIN:VCARD` line is parsed as a field
line `BEGIN ↦ ":VCARD"`), footer check, then `fillMap`; the trailing leftover
check is unreachable because `fillMap` always returns an error.  The returned
pair is the target state after the call and the Go `(string, error)` result.
The decoder's smart-string flag is accepted but never consulted on this path,
exactly as in the source. -/
def decodeMap (smart : Bool) (schemas : List Schema) (data : Str) (t : MapTarget) :
    MapTarget × Except VErr Str :=
  if t.isNil then (t, .error .nilMapTarget)
  else
    match decodeRecordHeader data with
    | .error e => (t, .error e)
    | .ok _ =>
      match decodeVCardFieldsIntoMap schemas data with
      | .error e => (t, .error e)
      | .ok (m, schema, s1) =>
        match decodeRecordFooter s1 with
        | .error e => (t, .error e)
        | .ok s2 =>
          match fillMap m schema with
          | (newMap, some e) => (⟨false, newMap⟩, .error e)
          | (newMap, none) =>
            if trimSpace s2 ≠ [] then (⟨false, newMap⟩, .error .leftoverTokens)
            else (⟨false, newMap⟩, .ok s2)

/-- `Decoder.decodeStruct` on all-string structs: header check, field parse
over the full record text `data` (the header-stripped remainder returned by
`decodeRecordHeader` is discarded, as in the source), footer check,
`fillStruct`, then the trailing-text check. -/
def decodeStruct (smart : Bool) (schemas : List Schema) (data : Str) (struc : GoStructStr) :
    GoStructStr × Except VErr Str :=
  match decodeRecordHeader data with
  | .error e => (struc, .error e)
  | .ok _ =>
    match decodeVCardFieldsIntoMap schemas data with
    | .error e => (struc, .error e)
    | .ok (m, schema, s1) =>
      match decodeRecordFooter s1 with
      | .error e => (struc, .error e)
      | .ok s2 =>
        match fillStruct smart struc m schema with
        | .error e => (struc, .error e)
        | .ok out =>
          if trimSpace s2 ≠ [] then (out, .error .leftoverTokens)
          else (out, .ok s2)

/-- Decode targets distinguished by `Decoder.decode`'s kind switch. -/
inductive DecTarget where
  | dmap (t : MapTarget) : DecTarget
  | dstruct (s : GoStructStr) : DecTarget
  | dslice : DecTarget
  | darray : DecTarget
deriving DecidableEq

/-- Outcome of one `Decoder.decode` dispatch: normal return with the mutated
target and remaining input, an error return with the target state at that
point, or a Go panic. -/
inductive DecOutcome where
  | ok (t : DecTarget) (rest : Str) : DecOutcome
  | err (t : DecTarget) (e : VErr) : DecOutcome
  | panicked (msg : Str) : DecOutcome
deriving DecidableEq

/-- `Decoder.decode`: dispatch on the target's reflect kind.  Slice and array
targets hit `decodeSlice` / `decodeArray`, whose bodies are single `panic`
calls (`panic("TODO: decodeSlice")`, `panic("TODO: decodeArray")`). -/
def decodeValue (smart : Bool) (schemas : List Schema) (s : Str) : DecTarget → DecOutcome
  | .dmap t =>
    match decodeMap smart schemas s t with
    | (t2, .ok rest) => .ok (.dmap t2) rest
    | (t2, .error e) => .err (.dmap t2) e
  | .dstruct st =>
    match decodeStruct smart schemas s st with
    | (st2, .ok rest) => .ok (.dstruct st2) rest
    | (st2, .error e) => .err (.dstruct st2) e
  | .dslice => .panicked "TODO: decodeSlice".toList
  | .darray => .panicked "TODO: decodeArray".toList

deriving instance DecidableEq for Except

/-- Value of one encodable field of a source aggregate: a plain string, a
value implementing `VCardFieldMarshaler` (represented by the result its
`MarshalVCardField` call returns), or a value of a type supporting neither. -/
inductive FieldVal where
  | fstr (s : Str) : FieldVal
  | fcustom (res : Except Str Str) : FieldVal
  | funsupported : FieldVal
deriving DecidableEq

/-- One declared field of a struct-shaped encode source. -/
structure EncField where
  fd : GoField
  val : FieldVal
deriving DecidableEq

def crlf : Str := "\r\n".toList

/-- `Encoder.encodeRecordHeader`: append `BEGIN:VCARD`, the newline sequence,
`VERSION:` with the schema version, and the newline sequence. -/
def encodeRecordHeader (b : Str) (nl : Str) (version : Str) : Str :=
  b ++ "BEGIN:VCARD".toList ++ nl ++ "VERSION:".toList ++ version ++ nl

/-- `Encoder.encodeRecordFooter`: append `END:VCARD` and the newline
sequence. -/
def encodeRecordFooter (b : Str) (nl : Str) : Str :=
  b ++ "END:VCARD".toList ++ nl

/-- Go `strings.Contains(s, ":")`. -/
def containsColon (s : Str) : Bool :=
  s.any (fun c => c == ':')

/-- The string-field emission shared by `Encoder.encodeStruct` and
`Encoder.encodeMap`: in smart mode a `:` separator is inserted after the key
only when the value contains no `:` anywhere; otherwise (and always in
non-smart mode) key and value are concatenated verbatim. -/
def emitStrField (smart : Bool) (nl : Str) (k v : Str) : Str :=
  if !smart then k ++ v ++ nl
  else if containsColon v then k ++ v ++ nl
  else k ++ ":".toList ++ v ++ nl

/-- The required-field probe of `Encoder.encodeStruct`: `FieldByName(req)`
finds a field whose name is `req`; independently a field whose `vCard` tag
equals `req` also satisfies the requirement. -/
def structHasRequired (fields : List EncField) (req : Str) : Bool :=
  fields.any (fun f => f.fd.name == req) || fields.any (fun f => f.fd.tag == req)

/-- The per-field loop body of `Encoder.encodeStruct`, folded over the
declared fields: fields whose vCard name is not a schema field are skipped;
string fields are emitted with `emitStrField`; marshaler fields append the
bytes `MarshalVCardField` returned after the key, or fail wrapped with the
field name; fields of any other type fail naming the field. -/
def encodeStructFold (smart : Bool) (nl : Str) (schema : Schema) :
    List EncField → Str → Except VErr Str
  | [], buf => .ok buf
  | f :: rest, buf =>
    let nm := vCardName f.fd
    if nm ∈ schema.fields then
      match f.val with
      | .fstr s => encodeStructFold smart nl schema rest (buf ++ emitStrField smart nl nm s)
      | .fcustom (.ok bytes) => encodeStructFold smart nl schema rest (buf ++ nm ++ bytes ++ nl)
      | .fcustom (.error msg) => .error (.fieldMarshalFailed f.fd.name msg)
      | .funsupported => .error (.fieldTypeUnsupported f.fd.name)
    else encodeStructFold smart nl schema rest buf

/-- `Encoder.encodeStruct`: check every schema-required field has a slot
(by name or by tag), then build the record into a local buffer (header, the
empty-struct shortcut, the field lines, footer) and append it to `b`; on any
error `b` is returned unchanged (modelled by the `Except` error). -/
def encodeStruct (b : Str) (smart : Bool) (nl : Str) (schema : Schema)
    (fields : List EncField) : Except VErr Str :=
  match schema.requiredFields.find? (fun req => !(structHasRequired fields req)) with
  | some req => .error (.encMissingRequired req)
  | none =>
    let buf0 := encodeRecordHeader [] nl schema.version
    if fields = [] then .ok (b ++ encodeRecordFooter buf0 nl)
    else
      match encodeStructFold smart nl schema fields buf0 with
      | .error e => .error e
      | .ok buf => .ok (b ++ encodeRecordFooter buf nl)

/-- `Encoder.encodeMap` on a `map[string]string` source: check the required
keys are present, emit the header, shortcut for the empty map, then one
`emitStrField` line per entry whose key is a schema field, and the footer.
Go iterates the map in non-deterministic order; the fold uses list order and
no theorem below depends on it. -/
def encodeMap (b : Str) (smart : Bool) (nl : Str) (schema : Schema)
    (entries : List (Str × Str)) : Except VErr Str :=
  match schema.requiredFields.find? (fun req => !(entries.any (fun p => p.1 == req))) with
  | some req => .error (.encMissingRequired req)
  | none =>
    let buf0 := encodeRecordHeader [] nl schema.version
    if entries = [] then .ok (b ++ encodeRecordFooter buf0 nl)
    else
      let buf := entries.foldl
        (fun buf p => if p.1 ∈ schema.fields then buf ++ emitStrField smart nl p.1 p.2 else buf)
        buf0
      .ok (b ++ encodeRecordFooter buf nl)

/-- `Encoder.encodeMap` on a map whose values implement
`VCardFieldMarshaler`: as for strings but each entry appends the marshaled
bytes after the key, failing (wrapped with the key) when the value's
`MarshalVCardField` fails. -/
def encodeMapCustomFold (nl : Str) (schema : Schema) :
    List (Str × Except Str Str) → Str → Except VErr Str
  | [], buf => .ok buf
  | p :: rest, buf =>
    if p.1 ∈ schema.fields then
      match p.2 with
      | .ok bytes => encodeMapCustomFold nl schema rest (buf ++ p.1 ++ bytes ++ nl)
      | .error msg => .error (.fieldMarshalFailed p.1 msg)
    else encodeMapCustomFold nl schema rest buf

def encodeMapCustom (b : Str) (nl : Str) (schema : Schema)
    (entries : List (Str × Except Str Str)) : Except VErr Str :=
  match schema.requiredFields.find? (fun req => !(entries.any (fun p => p.1 == req))) with
  | some req => .error (.encMissingRequired req)
  | none =>
    let buf0 := encodeRecordHeader [] nl schema.version
    if entries = [] then .ok (b ++ encodeRecordFooter buf0 nl)
    else
      match encodeMapCustomFold nl schema entries buf0 with
      | .error e => .error e
      | .ok buf => .ok (b ++ encodeRecordFooter buf nl)

/-- `Encoder.encodeMap` on a non-empty map whose value type is a struct not
implementing `VCardFieldMarshaler` (or an otherwise unsupported type): the
required-key check and the empty-map shortcut still run first; only then is
the value kind inspected and rejected. -/
def encodeMapBad (b : Str) (nl : Str) (schema : Schema) (keys : List Str) :
    Except VErr Str :=
  match schema.requiredFields.find? (fun req => !(keys.any (fun k => k == req))) with
  | some req => .error (.encMissingRequired req)
  | none =>
    let buf0 := encodeRecordHeader [] nl schema.version
    if keys = [] then .ok (b ++ encodeRecordFooter buf0 nl)
    else .error .mapValueNotMarshaler

/-- The member loop of `Encoder.encodeSlice` over struct elements, wrapping a
member's failure with its index. -/
def encodeSliceStructs (smart : Bool) (nl : Str) (schema : Schema) :
    Nat → Str → List (List EncField) → Except VErr Str
  | _, buf, [] => .ok buf
  | i, buf, e :: rest =>
    match encodeStruct buf smart nl schema e with
    | .error err => .error (.sliceMember i err)
    | .ok buf2 => encodeSliceStructs smart nl schema (i + 1) buf2 rest

/-- The member loop of `Encoder.encodeSlice` over `map[string]string`
elements. -/
def encodeSliceMaps (smart : Bool) (nl : Str) (schema : Schema) :
    Nat → Str → List (List (Str × Str)) → Except VErr Str
  | _, buf, [] => .ok buf
  | i, buf, e :: rest =>
    match encodeMap buf smart nl schema e with
    | .error err => .error (.sliceMember i err)
    | .ok buf2 => encodeSliceMaps smart nl schema (i + 1) buf2 rest

/-- Source aggregates covered by the embedding of `Encoder.encode`'s kind
switch. -/
inductive EncVal where
  | vstruct (fields : List EncField) : EncVal
  | vmapStr (entries : List (Str × Str)) : EncVal
  | vmapCustom (entries : List (Str × Except Str Str)) : EncVal
  | vmapBad (keys : List Str) : EncVal
  | vsliceS (elems : List (List EncField)) : EncVal
  | vsliceM (elems : List (List (Str × Str))) : EncVal
deriving DecidableEq

/-- `Encoder.encode`: dispatch on the source's reflect kind.  An empty slice
returns `b` unchanged (nothing at all is emitted); a non-empty slice encodes
its members into a fresh buffer which is appended to `b` only when every
member succeeded. -/
def encodeValue (b : Str) (smart : Bool) (nl : Str) (schema : Schema) : EncVal → Except VErr Str
  | .vstruct fields => encodeStruct b smart nl schema fields
  | .vmapStr entries => encodeMap b smart nl schema entries
  | .vmapCustom entries => encodeMapCustom b nl schema entries
  | .vmapBad keys => encodeMapBad b nl schema keys
  | .vsliceS elems =>
    if elems = [] then .ok b
    else
      match encodeSliceStructs smart nl schema 0 [] elems with
      | .error e => .error e
      | .ok buf => .ok (b ++ buf)
  | .vsliceM elems =>
    if elems = [] then .ok b
    else
      match encodeSliceMaps smart nl schema 0 [] elems with
      | .error e => .error e
      | .ok buf => .ok (b ++ buf)

/-- `Encoder.EncodeSchema`: encode into an intermediate buffer starting from
the empty byte slice, and only on success write that buffer to the underlying
writer (modelled as the bytes written so far).  The result pair is the
writer's state after the call and the returned error. -/
def EncodeSchema (w : Str) (smart : Bool) (nl : Str) (v : EncVal) (schema : Schema) :
    Str × Option VErr :=
  match encodeValue [] smart nl schema v with
  | .error e => (w, some e)
  | .ok b => (w ++ b, none)

/-- `MarshalSchema`: run a fresh default encoder (smart strings on, CRLF
newlines) against an empty buffer; on error return the empty byte slice with
the error, otherwise the buffer's contents. -/
def MarshalSchema (v : EncVal) (schema : Schema) : Str × Option VErr :=
  match EncodeSchema [] true crlf v schema with
  | (_, some e) => ([], some e)
  | (w, none) => (w, none)

theorem goIsLetter_not_space (c : Char) (h : goIsLetter c = true) : goIsSpace c = false := by
  cases hs : goIsSpace c
  · rfl
  · exfalso
    simp only [goIsSpace, Bool.or_eq_true, beq_iff_eq] at hs
    rcases hs with ((((h1 | h1) | h1) | h1) | h1) | h1 <;> subst h1 <;>
      exact absurd h (by decide)

theorem firstLine_append_nl (a r : Str) (ha : '\n' ∉ a) :
    firstLine (a ++ '\n' :: r) = a ++ ['\n'] := by
  induction a with
  | nil => simp [firstLine]
  | cons c t ih =>
      have hc : c ≠ '\n' := fun h => ha (h ▸ List.mem_cons_self c t)
      have ht : '\n' ∉ t := fun h => ha (List.mem_cons_of_mem c h)
      simp [firstLine, hc, ih ht]

theorem restAfterLine_append_nl (a r : Str) (ha : '\n' ∉ a) :
    restAfterLine (a ++ '\n' :: r) = r := by
  induction a with
  | nil => simp [restAfterLine]
  | cons c t ih =>
      have hc : c ≠ '\n' := fun h => ha (h ▸ List.mem_cons_self c t)
      have ht : '\n' ∉ t := fun h => ha (List.mem_cons_of_mem c h)
      simp [restAfterLine, hc, ih ht]

theorem trimSpace_clean (core ws : Str)
    (hh : ∀ c, core.head? = some c → goIsSpace c = false)
    (hl : ∀ c, core.getLast? = some c → goIsSpace c = false)
    (hws : ∀ c ∈ ws, goIsSpace c = true) :
    trimSpace (core ++ ws) = core := by
  unfold trimSpace
  cases core with
  | nil =>
      have h1 : ws.dropWhile goIsSpace = [] := by
        rw [List.dropWhile_eq_nil_iff]
        intro x hx
        exact hws x hx
      simp [h1]
  | cons c t =>
      have hc : goIsSpace c = false := hh c rfl
      have h1 : ((c :: t) ++ ws).dropWhile goIsSpace = (c :: t) ++ ws := by
        simp [List.dropWhile_cons, hc]
      have h3 : ws.reverse.dropWhile goIsSpace = [] := by
        rw [List.dropWhile_eq_nil_iff]
        intro x hx
        exact hws x (List.mem_reverse.mp hx)
      have h5 : (c :: t).reverse.dropWhile goIsSpace = (c :: t).reverse := by
        cases hgl : (c :: t).getLast? with
        | none => simp [List.getLast?_eq_none_iff] at hgl
        | some d =>
            have hd : goIsSpace d = false := hl d hgl
            have hhd : (c :: t).reverse.head? = some d := by
              rw [List.head?_reverse]; exact hgl
            cases hrv : (c :: t).reverse with
            | nil => simp at hrv
            | cons e u =>
                rw [hrv] at hhd
                simp only [List.head?_cons, Option.some_inj] at hhd
                subst hhd
                simp [List.dropWhile_cons, hd]
      have h2 : ((c :: t) ++ ws).reverse = ws.reverse ++ (c :: t).reverse := by
        simp
      rw [h1, h2, List.dropWhile_append, h3]
      simp only [List.isEmpty_nil, if_true]
      rw [h5, List.reverse_reverse]

theorem findIdx_boundary (k : Str) (c : Char) (r : Str)
    (hk : ∀ x ∈ k, goIsLetter x = true) (hc : goIsLetter c = false) :
    (k ++ c :: r).findIdx? (fun ch => !(goIsLetter ch)) = some k.length := by
  induction k with
  | nil => simp [List.findIdx?_cons, hc]
  | cons d t ih =>
      have hd : goIsLetter d = true := hk d (List.mem_cons_self d t)
      have ht : ∀ x ∈ t, goIsLetter x = true := fun x hx => hk x (List.mem_cons_of_mem d hx)
      simp [List.findIdx?_cons, hd, ih ht]

theorem takeWhile_letters (k : Str) (c : Char) (r : Str)
    (hk : ∀ x ∈ k, goIsLetter x = true) (hc : goIsLetter c = false) :
    (k ++ c :: r).takeWhile goIsLetter = k := by
  induction k with
  | nil => simp [List.takeWhile_cons, hc]
  | cons d t ih =>
      have hd : goIsLetter d = true := hk d (List.mem_cons_self d t)
      have ht : ∀ x ∈ t, goIsLetter x = true := fun x hx => hk x (List.mem_cons_of_mem d hx)
      simp [List.takeWhile_cons, hd, ih ht]

theorem key_suffix_ne_footer (k : Str) (c : Char) (r : Str)
    (hk : ∀ x ∈ k, goIsLetter x = true) (hc : goIsLetter c = false)
    (hne : k ≠ "END".toList) :
    k ++ c :: r ≠ expectedFooter := by
  intro h
  apply hne
  have h1 : (k ++ c :: r).takeWhile goIsLetter = k := takeWhile_letters k c r hk hc
  have h2 : expectedFooter.takeWhile goIsLetter = "END".toList := by decide
  rw [h] at h1
  rw [h1] at h2
  exact h2

theorem mapLookup_insert_self (m : RawMap) (k v : Str) :
    mapLookup (mapInsert m k v) k = some v := by
  induction m with
  | nil => simp [mapInsert, mapLookup]
  | cons p rest ih =>
      by_cases h : p.1 = k
      · simp [mapInsert, mapLookup, h]
      · simp [mapInsert, mapLookup, h, ih]

theorem mapLookup_insert_ne (m : RawMap) (k v k2 : Str) (h : k2 ≠ k) :
    mapLookup (mapInsert m k v) k2 = mapLookup m k2 := by
  have hne : ¬ k = k2 := fun hh => h hh.symm
  induction m with
  | nil =>
      simp only [mapInsert, mapLookup]
      rw [if_neg hne]
  | cons p rest ih =>
      simp only [mapInsert]
      by_cases hp : p.1 = k
      · rw [if_pos hp]
        have hpk2 : ¬ p.1 = k2 := by rw [hp]; exact hne
        simp only [mapLookup]
        rw [if_neg hne, if_neg hpk2]
      · rw [if_neg hp]
        simp only [mapLookup, ih]

def insertAll (m0 : RawMap) (l : List (Str × Str)) : RawMap :=
  l.foldl (fun acc p => mapInsert acc p.1 p.2) m0

theorem insertAll_append (m0 : RawMap) (l1 l2 : List (Str × Str)) :
    insertAll m0 (l1 ++ l2) = insertAll (insertAll m0 l1) l2 := by
  simp [insertAll, List.foldl_append]

theorem mapLookup_insertAll (l : List (Str × Str)) (m0 : RawMap) (k : Str) :
    mapLookup (insertAll m0 l) k =
      (match l.reverse.find? (fun p => p.1 == k) with
       | some p => some p.2
       | none => mapLookup m0 k) := by
  induction l generalizing m0 with
  | nil => simp [insertAll]
  | cons p t ih =>
      have hstep : insertAll m0 (p :: t) = insertAll (mapInsert m0 p.1 p.2) t := rfl
      rw [hstep, ih]
      have hrev : (p :: t).reverse = t.reverse ++ [p] := by simp
      rw [hrev, List.find?_append]
      cases hf : t.reverse.find? (fun q => q.1 == k) with
      | some q => simp [hf]
      | none =>
          simp only [hf, Option.none_or]
          by_cases hk : p.1 = k
          · subst hk
            simp [List.find?_cons, mapLookup_insert_self]
          · have : (p.1 == k) = false := by
              simp [hk]
            simp [List.find?_cons, this, mapLookup_insert_ne m0 p.1 p.2 k (fun h => hk h.symm)]

theorem find_reverse_nodup (l : List (Str × Str)) (hnd : (l.map Prod.fst).Nodup)
    (k v : Str) (hin : (k, v) ∈ l) :
    l.reverse.find? (fun p => p.1 == k) = some (k, v) := by
  induction l with
  | nil => cases hin
  | cons p t ih =>
      have hrev : (p :: t).reverse = t.reverse ++ [p] := by simp
      rw [hrev, List.find?_append]
      rcases List.mem_cons.mp hin with heq | hmem
      · subst heq
        have hnotin : ∀ q ∈ t, q.1 ≠ k := by
          intro q hq hqk
          have : k ∈ t.map Prod.fst := by
            rw [← hqk]
            exact List.mem_map_of_mem Prod.fst hq
          exact (List.nodup_cons.mp hnd).1 this
        have hnone : t.reverse.find? (fun q => q.1 == k) = none := by
          rw [List.find?_eq_none]
          intro q hq
          simp [hnotin q (List.mem_reverse.mp hq)]
        simp [hnone, List.find?_cons]
      · have := ih (List.nodup_cons.mp hnd).2 hmem
        simp [this]

/-- One raw field line of a document: key, raw value suffix (starting with its
punctuation character), CRLF terminator. -/
def lineOfRaw (p : Str × Str) : Str :=
  p.1 ++ (p.2 ++ crlf)

/-- The concatenation of a list of raw field lines. -/
def fieldLinesOf (lines : List (Str × Str)) : Str :=
  (lines.map lineOfRaw).flatten

/-- A full single-record document: `BEGIN:VCARD` line, `VERSION` line, the
given field lines, `END:VCARD` line, all CRLF-terminated.  This is the shape
of every well-formed record and exactly what the encoder emits. -/
def docOf (version : Str) (lines : List (Str × Str)) : Str :=
  fieldLinesOf (("BEGIN".toList, ":VCARD".toList) :: (versionKey, ':' :: version) :: lines)
    ++ (expectedFooter ++ crlf)

/-- Well-formedness of one raw field line, sufficient for the splitter to
recover exactly the key and the suffix: non-empty all-letter key other than
`END`, non-empty suffix starting with a non-letter, containing no newline and
not ending in whitespace (`TrimSpace` would eat trailing whitespace). -/
def WfRawLine (p : Str × Str) : Prop :=
  p.1 ≠ [] ∧ p.1.all goIsLetter = true ∧ p.1 ≠ "END".toList ∧
  p.2 ≠ [] ∧ p.2.head?.all (fun c => !(goIsLetter c)) = true ∧
  '\n' ∉ p.2 ∧ p.2.getLast?.all (fun c => !(goIsSpace c)) = true

instance (p : Str × Str) : Decidable (WfRawLine p) := by
  unfold WfRawLine
  infer_instance

theorem nl_not_mem_of_letters (k : Str) (hk : k.all goIsLetter = true) : '\n' ∉ k := by
  intro hmem
  have := (List.all_eq_true.mp hk) '\n' hmem
  exact absurd this (by decide)

theorem parseFields_at_footer (rest : Str) (m : RawMap) :
    parseFields ((expectedFooter ++ crlf) ++ rest) m = .ok (m, (expectedFooter ++ crlf) ++ rest) := by
  have hsplit : (expectedFooter ++ crlf) ++ rest =
      'E' :: (("ND:VCARD\r".toList ++ ('\n' :: rest))) := by
    simp [expectedFooter, crlf]
  rw [hsplit, parseFields_cons]
  have hfl : firstLine ('E' :: ("ND:VCARD\r".toList ++ '\n' :: rest)) =
      "END:VCARD\r".toList ++ ['\n'] := by
    have : 'E' :: ("ND:VCARD\r".toList ++ '\n' :: rest) =
        "END:VCARD\r".toList ++ '\n' :: rest := by simp
    rw [this]
    exact firstLine_append_nl "END:VCARD\r".toList rest (by decide)
  have htrim : trimSpace ("END:VCARD\r".toList ++ ['\n']) = expectedFooter := by
    have : "END:VCARD\r".toList ++ ['\n'] = expectedFooter ++ "\r\n".toList := by
      simp [expectedFooter]
    rw [this]
    exact trimSpace_clean expectedFooter "\r\n".toList (by decide) (by decide) (by decide)
  have hcond : trimSpace (firstLine ('E' :: ("ND:VCARD\r".toList ++ '\n' :: rest)))
      = expectedFooter := by
    rw [hfl, htrim]
  simp only [hcond]
  simp

theorem parseFields_fieldLines (lines : List (Str × Str)) (rest : Str) (m : RawMap)
    (hwf : ∀ p ∈ lines, WfRawLine p) :
    parseFields (fieldLinesOf lines ++ ((expectedFooter ++ crlf) ++ rest)) m =
      .ok (insertAll m lines, (expectedFooter ++ crlf) ++ rest) := by
  induction lines generalizing m with
  | nil =>
      simp only [fieldLinesOf, List.map_nil, List.flatten_nil, List.nil_append]
      exact parseFields_at_footer rest m
  | cons p t ih =>
      obtain ⟨hk1, hk2, hk3, hv1, hv2, hv3, hv4⟩ := hwf p (List.mem_cons_self p t)
      obtain ⟨c0, v0, hp2⟩ : ∃ c0 v0, p.2 = c0 :: v0 := by
        cases hp : p.2 with
        | nil => exact absurd hp hv1
        | cons a b => exact ⟨a, b, rfl⟩
      have hc0 : goIsLetter c0 = false := by
        rw [hp2] at hv2
        simpa using hv2
      obtain ⟨ck, kt, hp1⟩ : ∃ ck kt, p.1 = ck :: kt := by
        cases hp : p.1 with
        | nil => exact absurd hp hk1
        | cons a b => exact ⟨a, b, rfl⟩
      have hklet : ∀ x ∈ p.1, goIsLetter x = true := List.all_eq_true.mp hk2
      -- the whole remaining input, written as one cons cell
      have hshape : fieldLinesOf (p :: t) ++ ((expectedFooter ++ crlf) ++ rest) =
          (p.1 ++ (p.2 ++ ['\r'])) ++
            ('\n' :: (fieldLinesOf t ++ ((expectedFooter ++ crlf) ++ rest))) := by
        simp [fieldLinesOf, lineOfRaw, crlf]
      have hnl : '\n' ∉ p.1 ++ (p.2 ++ ['\r']) := by
        intro hmem
        rcases List.mem_append.mp hmem with h | h
        · exact nl_not_mem_of_letters p.1 hk2 h
        · rcases List.mem_append.mp h with h | h
          · exact hv3 h
          · simp at h
      obtain ⟨cc, cs, hcons⟩ : ∃ cc cs,
          fieldLinesOf (p :: t) ++ ((expectedFooter ++ crlf) ++ rest) = cc :: cs := by
        rw [hshape, hp1]
        exact ⟨ck, _, rfl⟩
      rw [hcons, parseFields_cons]
      have hfl : firstLine (cc :: cs) = p.1 ++ (p.2 ++ crlf) := by
        rw [← hcons, hshape, firstLine_append_nl _ _ hnl]
        simp [crlf]
      have hcore : trimSpace (p.1 ++ (p.2 ++ crlf)) = p.1 ++ p.2 := by
        have hassoc : p.1 ++ (p.2 ++ crlf) = (p.1 ++ p.2) ++ crlf := by
          simp
        rw [hassoc]
        apply trimSpace_clean
        · intro c hc
          have hceq : c = ck := by
            rw [hp1] at hc
            simp only [List.cons_append, List.head?_cons, Option.some_inj] at hc
            simpa [eq_comm] using hc
          subst hceq
          exact goIsLetter_not_space c
            (hklet c (by rw [hp1]; exact List.mem_cons_self c kt))
        · intro c hc
          rw [List.getLast?_append_of_ne_nil p.1 hv1] at hc
          rw [hc] at hv4
          simpa using hv4
        · intro c hc
          have : c = '\r' ∨ c = '\n' := by simpa [crlf] using hc
          rcases this with rfl | rfl <;> decide
      have hne : p.1 ++ p.2 ≠ expectedFooter := by
        rw [hp2]
        exact key_suffix_ne_footer p.1 c0 v0 hklet hc0 hk3
      have hidx : (p.1 ++ p.2).findIdx? (fun ch => !(goIsLetter ch)) = some p.1.length := by
        rw [hp2]
        exact findIdx_boundary p.1 c0 v0 hklet hc0
      have htake : (p.1 ++ p.2).take p.1.length = p.1 := by
        simp
      have hdrop : (p.1 ++ p.2).drop p.1.length = p.2 := by
        simp
      have hrest : restAfterLine (cc :: cs) =
          fieldLinesOf t ++ ((expectedFooter ++ crlf) ++ rest) := by
        rw [← hcons, hshape]
        exact restAfterLine_append_nl _ _ hnl
      simp only [hfl, hcore, if_neg hne, hidx, htake, hdrop]
      rw [if_neg (by simp [hk1, hv1])]
      rw [hrest, ih (mapInsert m p.1 p.2) (fun q hq => hwf q (List.mem_cons_of_mem p hq))]
      rfl

/-- The three leading record lines (`BEGIN`, `VERSION`, user fields) as the
raw lines the field-line loop actually sees: since `decodeStruct`/`decodeMap`
hand the unstripped record text to `decodeVCardFieldsIntoMap`, the
`BEGIN:VCARD` line is parsed as an ordinary field line `BEGIN ↦ ":VCARD"`. -/
def recLines (version : Str) (lines : List (Str × Str)) : List (Str × Str) :=
  ("BEGIN".toList, ":VCARD".toList) :: (versionKey, ':' :: version) :: lines

theorem docOf_eq_fieldLines (version : Str) (lines : List (Str × Str)) (rest : Str) :
    docOf version lines ++ rest =
      fieldLinesOf (recLines version lines) ++ ((expectedFooter ++ crlf) ++ rest) := by
  simp [docOf, recLines]

theorem recLines_reverse (version : Str) (lines : List (Str × Str)) :
    (recLines version lines).reverse =
      lines.reverse ++ [(versionKey, ':' :: version), ("BEGIN".toList, ":VCARD".toList)] := by
  simp [recLines]

theorem lookup_recLines_version (version : Str) (lines : List (Str × Str))
    (hnover : ∀ p ∈ lines, p.1 ≠ versionKey) :
    mapLookup (insertAll [] (recLines version lines)) versionKey = some (':' :: version) := by
  rw [mapLookup_insertAll, recLines_reverse]
  have hnone : lines.reverse.find? (fun p => p.1 == versionKey) = none := by
    rw [List.find?_eq_none]
    intro q hq
    simpa using hnover q (List.mem_reverse.mp hq)
  rw [List.find?_append, hnone]
  simp [List.find?]

theorem lookup_recLines_user (version : Str) (lines : List (Str × Str)) (k v : Str)
    (hnd : (lines.map Prod.fst).Nodup) (hin : (k, v) ∈ lines) :
    mapLookup (insertAll [] (recLines version lines)) k = some v := by
  rw [mapLookup_insertAll, recLines_reverse, List.find?_append,
    find_reverse_nodup lines hnd k v hin]
  rfl

theorem lookup_recLines_isSome (version : Str) (lines : List (Str × Str)) (req : Str)
    (hreq : req ∈ lines.map Prod.fst) :
    (mapLookup (insertAll [] (recLines version lines)) req).isNone = false := by
  rw [mapLookup_insertAll, recLines_reverse]
  obtain ⟨p, hp, hpk⟩ : ∃ p ∈ lines, p.1 = req := by
    simpa using hreq
  cases hfind : lines.reverse.find? (fun q => q.1 == req) with
  | none =>
      rw [List.find?_eq_none] at hfind
      exact absurd (by simp [hpk]) (hfind p (List.mem_reverse.mpr hp))
  | some q =>
      rw [List.find?_append, hfind]
      rfl

theorem decodeRecordHeader_doc (version : Str) (lines : List (Str × Str)) (rest : Str) :
    ∃ s, decodeRecordHeader (docOf version lines ++ rest) = .ok s := by
  have hsplit : docOf version lines ++ rest =
      "BEGIN:VCARD\r".toList ++ '\n' :: (fieldLinesOf ((versionKey, ':' :: version) :: lines)
        ++ ((expectedFooter ++ crlf) ++ rest)) := by
    rw [docOf_eq_fieldLines]
    simp [recLines, fieldLinesOf, lineOfRaw, crlf]
  have hnl : '\n' ∉ "BEGIN:VCARD\r".toList := by decide
  have hfl : firstLine (docOf version lines ++ rest) = "BEGIN:VCARD\r".toList ++ ['\n'] := by
    rw [hsplit]
    exact firstLine_append_nl _ _ hnl
  have htrim : trimSpace ("BEGIN:VCARD\r".toList ++ ['\n']) = expectedHeader := by
    have : "BEGIN:VCARD\r".toList ++ ['\n'] = expectedHeader ++ "\r\n".toList := by
      simp [expectedHeader]
    rw [this]
    exact trimSpace_clean expectedHeader "\r\n".toList (by decide) (by decide) (by decide)
  refine ⟨restAfterLine (docOf version lines ++ rest), ?_⟩
  unfold decodeRecordHeader
  rw [if_neg (by rw [hsplit]; simp), hfl, htrim, if_pos rfl]

theorem decodeRecordFooter_after (rest : Str) :
    decodeRecordFooter ((expectedFooter ++ crlf) ++ rest) = .ok rest := by
  have hsplit : (expectedFooter ++ crlf) ++ rest = "END:VCARD\r".toList ++ '\n' :: rest := by
    simp [expectedFooter, crlf]
  have hnl : '\n' ∉ "END:VCARD\r".toList := by decide
  have hfl : firstLine ((expectedFooter ++ crlf) ++ rest) = "END:VCARD\r".toList ++ ['\n'] := by
    rw [hsplit]
    exact firstLine_append_nl _ _ hnl
  have htrim : trimSpace ("END:VCARD\r".toList ++ ['\n']) = expectedFooter := by
    have : "END:VCARD\r".toList ++ ['\n'] = expectedFooter ++ "\r\n".toList := by
      simp [expectedFooter]
    rw [this]
    exact trimSpace_clean expectedFooter "\r\n".toList (by decide) (by decide) (by decide)
  unfold decodeRecordFooter
  rw [if_neg (by rw [hsplit]; simp), hfl, htrim, if_pos rfl]
  rw [hsplit]
  rw [restAfterLine_append_nl _ _ hnl]

/-- Well-formed single-record documents resolve through
`decodeVCardFieldsIntoMap` to the raw map of all record lines (including the
`BEGIN` pseudo-line), the schema registered for the declared version, and the
remainder starting at the footer. -/
theorem decodeFields_doc (schema : Schema) (lines : List (Str × Str)) (rest : Str)
    (hwf : ∀ p ∈ lines, WfRawLine p)
    (hwfv : WfRawLine (versionKey, ':' :: schema.version))
    (hnover : ∀ p ∈ lines, p.1 ≠ versionKey)
    (hreq : ∀ req ∈ schema.requiredFields, req ∈ lines.map Prod.fst) :
    decodeVCardFieldsIntoMap [schema] (docOf schema.version lines ++ rest) =
      .ok (insertAll [] (recLines schema.version lines), schema,
        (expectedFooter ++ crlf) ++ rest) := by
  have hwfall : ∀ p ∈ recLines schema.version lines, WfRawLine p := by
    intro p hp
    rcases List.mem_cons.mp hp with rfl | hp2
    · decide
    · rcases List.mem_cons.mp hp2 with rfl | hp3
      · exact hwfv
      · exact hwf p hp3
  have hdrop : (':' :: schema.version).drop 1 = schema.version := rfl
  have hfind : ([schema] : List Schema).find? (fun sc => sc.version == schema.version)
      = some schema := by
    simp [List.find?]
  have hnonereq : schema.requiredFields.find?
      (fun req => (mapLookup (insertAll [] (recLines schema.version lines)) req).isNone)
      = none := by
    rw [List.find?_eq_none]
    intro req hreqmem
    rw [lookup_recLines_isSome schema.version lines req (hreq req hreqmem)]
    simp
  unfold decodeVCardFieldsIntoMap
  rw [docOf_eq_fieldLines,
    parseFields_fieldLines (recLines schema.version lines) rest [] hwfall]
  simp only [lookup_recLines_version schema.version lines hnover, hdrop, hfind, hnonereq]

/-- Decoding a well-formed single-record document into a struct target is the
composition of the framing/validation pipeline with `fillStruct` on the
record's raw map, followed by the leftover-text check on the trailing text. -/
theorem decodeStruct_doc (smart : Bool) (schema : Schema) (lines : List (Str × Str))
    (struc : GoStructStr) (rest : Str)
    (hwf : ∀ p ∈ lines, WfRawLine p)
    (hwfv : WfRawLine (versionKey, ':' :: schema.version))
    (hnover : ∀ p ∈ lines, p.1 ≠ versionKey)
    (hreq : ∀ req ∈ schema.requiredFields, req ∈ lines.map Prod.fst) :
    decodeStruct smart [schema] (docOf schema.version lines ++ rest) struc =
      match fillStruct smart struc (insertAll [] (recLines schema.version lines)) schema with
      | .error e => (struc, .error e)
      | .ok out =>
        if trimSpace rest ≠ [] then (out, .error .leftoverTokens) else (out, .ok rest) := by
  obtain ⟨s0, hs0⟩ := decodeRecordHeader_doc schema.version lines rest
  unfold decodeStruct
  rw [hs0, decodeFields_doc schema lines rest hwf hwfv hnover hreq]
  dsimp only
  rw [decodeRecordFooter_after rest]

/-- Same pipeline for a non-nil `map[string]string` target: the map is set to
the `fillMapStringCase` projection of the raw record and the call returns the
unconditional `fillMap` error, never reaching the leftover check. -/
theorem decodeMap_doc (smart : Bool) (schema : Schema) (lines : List (Str × Str))
    (m0 : RawMap) (rest : Str)
    (hwf : ∀ p ∈ lines, WfRawLine p)
    (hwfv : WfRawLine (versionKey, ':' :: schema.version))
    (hnover : ∀ p ∈ lines, p.1 ≠ versionKey)
    (hreq : ∀ req ∈ schema.requiredFields, req ∈ lines.map Prod.fst) :
    decodeMap smart [schema] (docOf schema.version lines ++ rest) ⟨false, m0⟩ =
      (⟨false, fillMapStringCase (insertAll [] (recLines schema.version lines)) schema⟩,
        .error .mapValueUnsupported) := by
  obtain ⟨s0, hs0⟩ := decodeRecordHeader_doc schema.version lines rest
  unfold decodeMap
  rw [if_neg (by simp)]
  rw [hs0, decodeFields_doc schema lines rest hwf hwfv hnover hreq]
  dsimp only
  rw [decodeRecordFooter_after rest]
  rfl

theorem fillStruct_ok (smart : Bool) (struc : GoStructStr) (m : RawMap) (schema : Schema)
    (h : ∀ req ∈ schema.requiredFields, ∃ fv ∈ struc.fields, vCardName fv.1 = req) :
    fillStruct smart struc m schema = .ok ⟨struc.fields.map (fillStructEntry smart m schema)⟩ := by
  unfold fillStruct
  have hnone : schema.requiredFields.find?
      (fun req => !(struc.fields.any (fun fv => vCardName fv.1 == req))) = none := by
    rw [List.find?_eq_none]
    intro req hreq
    obtain ⟨fv, hfv, hname⟩ := h req hreq
    have : struc.fields.any (fun fv => vCardName fv.1 == req) = true := by
      rw [List.any_eq_true]
      exact ⟨fv, hfv, by simp [hname]⟩
    simp [this]
  rw [hnone]

theorem lookup_fold_fill (l : List Str) (acc : RawMap) (m : RawMap) (k : Str) :
    mapLookup (l.foldl (fun acc f =>
        match mapLookup m f with
        | some v => mapInsert acc f v
        | none => acc) acc) k =
      if k ∈ l ∧ (mapLookup m k).isSome then mapLookup m k else mapLookup acc k := by
  induction l generalizing acc with
  | nil => simp
  | cons f t ih =>
      simp only [List.foldl_cons]
      cases hm : mapLookup m f with
      | some v =>
          rw [ih]
          dsimp only
          by_cases hkt : k ∈ t ∧ (mapLookup m k).isSome = true
          · rw [if_pos hkt, if_pos ⟨List.mem_cons_of_mem f hkt.1, hkt.2⟩]
          · rw [if_neg hkt]
            by_cases hfk : f = k
            · subst hfk
              rw [mapLookup_insert_self acc f v]
              rw [if_pos ⟨List.mem_cons_self f t, by rw [hm]; rfl⟩, hm]
            · have hcond : ¬ (k ∈ f :: t ∧ (mapLookup m k).isSome = true) := by
                rintro ⟨hmem, hs⟩
                rcases List.mem_cons.mp hmem with h1 | h1
                · exact hfk h1.symm
                · exact hkt ⟨h1, hs⟩
              rw [if_neg hcond]
              exact mapLookup_insert_ne acc f v k (fun hh => hfk hh.symm)
      | none =>
          rw [ih]
          dsimp only
          by_cases hkt : k ∈ t ∧ (mapLookup m k).isSome = true
          · rw [if_pos hkt, if_pos ⟨List.mem_cons_of_mem f hkt.1, hkt.2⟩]
          · have hcond : ¬ (k ∈ f :: t ∧ (mapLookup m k).isSome = true) := by
              rintro ⟨hmem, hs⟩
              rcases List.mem_cons.mp hmem with h1 | h1
              · subst h1
                rw [hm] at hs
                simp at hs
              · exact hkt ⟨h1, hs⟩
            rw [if_neg hkt, if_neg hcond]

theorem mapLookup_fillMapStringCase (m : RawMap) (schema : Schema) (k : Str) :
    mapLookup (fillMapStringCase m schema) k =
      if k ∈ schema.fields ∧ (mapLookup m k).isSome then mapLookup m k else none := by
  unfold fillMapStringCase
  rw [lookup_fold_fill]
  rfl

theorem encodeStructFold_strings (smart : Bool) (nl : Str) (schema : Schema)
    (xs : List (Str × Str)) (buf : Str)
    (hmem : ∀ p ∈ xs, p.1 ∈ schema.fields) :
    encodeStructFold smart nl schema (xs.map (fun p => ⟨⟨p.1, []⟩, .fstr p.2⟩)) buf =
      .ok (buf ++ (xs.map (fun p => emitStrField smart nl p.1 p.2)).flatten) := by
  induction xs generalizing buf with
  | nil => simp [encodeStructFold]
  | cons p t ih =>
      have hp : p.1 ∈ schema.fields := hmem p (List.mem_cons_self p t)
      have hname : vCardName ⟨p.1, []⟩ = p.1 := by
        simp [vCardName]
      simp only [List.map_cons, encodeStructFold, hname, if_pos hp]
      rw [ih (buf ++ emitStrField smart nl p.1 p.2)
        (fun q hq => hmem q (List.mem_cons_of_mem p hq))]
      simp

theorem encodeStruct_strings (b : Str) (smart : Bool) (nl : Str) (schema : Schema)
    (xs : List (Str × Str))
    (hreq : ∀ req ∈ schema.requiredFields, req ∈ xs.map Prod.fst)
    (hmem : ∀ p ∈ xs, p.1 ∈ schema.fields) :
    encodeStruct b smart nl schema (xs.map (fun p => ⟨⟨p.1, []⟩, .fstr p.2⟩)) =
      .ok (b ++ (encodeRecordHeader [] nl schema.version ++
        ((xs.map (fun p => emitStrField smart nl p.1 p.2)).flatten ++
          ("END:VCARD".toList ++ nl)))) := by
  unfold encodeStruct
  have hnone : schema.requiredFields.find?
      (fun req => !(structHasRequired (xs.map (fun p => ⟨⟨p.1, []⟩, .fstr p.2⟩)) req)) = none := by
    rw [List.find?_eq_none]
    intro req hr
    obtain ⟨p, hp, hpk⟩ : ∃ p ∈ xs, p.1 = req := by
      simpa using hreq req hr
    have : structHasRequired (xs.map (fun p => ⟨⟨p.1, []⟩, .fstr p.2⟩)) req = true := by
      unfold structHasRequired
      rw [Bool.or_eq_true]
      left
      rw [List.any_eq_true]
      exact ⟨⟨⟨p.1, []⟩, .fstr p.2⟩, List.mem_map_of_mem _ hp, by simp [hpk]⟩
    simp [this]
  rw [hnone]
  by_cases hx : xs = []
  · subst hx
    simp [encodeRecordFooter]
  · have hne : xs.map (fun p => (⟨⟨p.1, []⟩, .fstr p.2⟩ : EncField)) ≠ [] := by
      simpa using hx
    rw [if_neg hne,
      encodeStructFold_strings smart nl schema xs (encodeRecordHeader [] nl schema.version) hmem]
    simp [encodeRecordFooter]

theorem emitStrField_noColon (k v : Str) (h : containsColon v = false) :
    emitStrField true crlf k v = lineOfRaw (k, ':' :: v) := by
  simp [emitStrField, h, lineOfRaw]

theorem docOf_decomp (version : Str) (lines : List (Str × Str)) :
    docOf version lines = encodeRecordHeader [] crlf version ++
      ((lines.map lineOfRaw).flatten ++ ("END:VCARD".toList ++ crlf)) := by
  simp [docOf, fieldLinesOf, lineOfRaw, versionKey, encodeRecordHeader, expectedFooter,
    List.append_assoc]

/-- With smart strings on and the default CRLF terminator, encoding a struct
of plain string fields (no rename tags, every name a schema field, every
required field present, no value containing a colon) succeeds and produces
exactly the well-formed document whose field line for `(k, v)` is `k:v`. -/
theorem MarshalSchema_strings (schema : Schema) (xs : List (Str × Str))
    (hreq : ∀ req ∈ schema.requiredFields, req ∈ xs.map Prod.fst)
    (hmem : ∀ p ∈ xs, p.1 ∈ schema.fields)
    (hnc : ∀ p ∈ xs, containsColon p.2 = false) :
    MarshalSchema (.vstruct (xs.map (fun p => ⟨⟨p.1, []⟩, .fstr p.2⟩))) schema =
      (docOf schema.version (xs.map (fun p => (p.1, ':' :: p.2))), none) := by
  have hlines : (xs.map (fun p => emitStrField true crlf p.1 p.2)).flatten =
      ((xs.map (fun p => (p.1, ':' :: p.2))).map lineOfRaw).flatten := by
    congr 1
    rw [List.map_map]
    apply List.map_congr_left
    intro p hp
    exact emitStrField_noColon p.1 p.2 (hnc p hp)
  unfold MarshalSchema EncodeSchema
  dsimp only [encodeValue]
  rw [encodeStruct_strings [] true crlf schema xs hreq hmem]
  rw [docOf_decomp]
  simp [hlines]

theorem fillStruct_roundtrip (schema : Schema) (xs : List (Str × Str))
    (hmem : ∀ p ∈ xs, p.1 ∈ schema.fields)
    (hnd : (xs.map Prod.fst).Nodup)
    (hreq : ∀ req ∈ schema.requiredFields, req ∈ xs.map Prod.fst) :
    fillStruct true ⟨xs.map (fun p => (⟨p.1, []⟩, []))⟩
        (insertAll [] (recLines schema.version (xs.map (fun p => (p.1, ':' :: p.2)))))
        schema =
      .ok ⟨xs.map (fun p => (⟨p.1, []⟩, p.2))⟩ := by
  have hndl : ((xs.map (fun p => (p.1, ':' :: p.2))).map Prod.fst).Nodup := by
    rw [List.map_map]
    exact hnd
  rw [fillStruct_ok]
  · refine congrArg Except.ok (congrArg GoStructStr.mk ?_)
    rw [List.map_map]
    apply List.map_congr_left
    intro p hp
    show fillStructEntry true _ schema (⟨p.1, []⟩, []) = (⟨p.1, []⟩, p.2)
    unfold fillStructEntry
    have hname : vCardName ⟨p.1, []⟩ = p.1 := by
      simp [vCardName]
    dsimp only
    rw [hname, if_pos (hmem p hp)]
    rw [lookup_recLines_user schema.version (xs.map (fun p => (p.1, ':' :: p.2)))
      p.1 (':' :: p.2) hndl (by exact List.mem_map_of_mem _ hp)]
    simp [fillStructField]
  · intro req hreqm
    obtain ⟨p, hp, hpk⟩ : ∃ p ∈ xs, p.1 = req := by
      simpa using hreq req hreqm
    exact ⟨(⟨p.1, []⟩, []), List.mem_map_of_mem _ hp, by simp [vCardName, hpk]⟩

/-- A record document with arbitrary field lines after the `BEGIN` line (the
`VERSION` line, when present, is one of `lines`). -/
def docOfRaw (lines : List (Str × Str)) (rest : Str) : Str :=
  fieldLinesOf (("BEGIN".toList, ":VCARD".toList) :: lines) ++ ((expectedFooter ++ crlf) ++ rest)

theorem docOf_eq_docOfRaw (version : Str) (lines : List (Str × Str)) (rest : Str) :
    docOf version lines ++ rest = docOfRaw ((versionKey, ':' :: version) :: lines) rest := by
  rw [docOf_eq_fieldLines]
  rfl

theorem decodeRecordHeader_docOfRaw (lines : List (Str × Str)) (rest : Str) :
    ∃ s, decodeRecordHeader (docOfRaw lines rest) = .ok s := by
  have hsplit : docOfRaw lines rest =
      "BEGIN:VCARD\r".toList ++ '\n' :: (fieldLinesOf lines ++ ((expectedFooter ++ crlf) ++ rest)) := by
    simp [docOfRaw, fieldLinesOf, lineOfRaw, crlf]
  have hnl : '\n' ∉ "BEGIN:VCARD\r".toList := by decide
  have hfl : firstLine (docOfRaw lines rest) = "BEGIN:VCARD\r".toList ++ ['\n'] := by
    rw [hsplit]
    exact firstLine_append_nl _ _ hnl
  have htrim : trimSpace ("BEGIN:VCARD\r".toList ++ ['\n']) = expectedHeader := by
    have : "BEGIN:VCARD\r".toList ++ ['\n'] = expectedHeader ++ "\r\n".toList := by
      simp [expectedHeader]
    rw [this]
    exact trimSpace_clean expectedHeader "\r\n".toList (by decide) (by decide) (by decide)
  refine ⟨restAfterLine (docOfRaw lines rest), ?_⟩
  unfold decodeRecordHeader
  rw [if_neg (by rw [hsplit]; simp), hfl, htrim, if_pos rfl]

theorem mapLookup_insertAll_none (l : List (Str × Str)) (k : Str)
    (h : ∀ p ∈ l, p.1 ≠ k) :
    mapLookup (insertAll [] l) k = none := by
  rw [mapLookup_insertAll]
  have hnone : l.reverse.find? (fun p => p.1 == k) = none := by
    rw [List.find?_eq_none]
    intro q hq
    simpa using h q (List.mem_reverse.mp hq)
  rw [hnone]
  rfl

/-- For a well-formed record whose field lines avoid the schema-required key
`F` (other than `BEGIN`, which the header line itself supplies), field
validation fails with some error: either the `VERSION` resolution fails or the
required-field check does. -/
theorem decodeVCardFields_missing_required (schema : Schema) (F : Str)
    (lines : List (Str × Str))
    (hF : F ∈ schema.requiredFields)
    (hFB : F ≠ "BEGIN".toList)
    (hwf : ∀ p ∈ lines, WfRawLine p)
    (hnoF : ∀ p ∈ lines, p.1 ≠ F) :
    ∃ e, decodeVCardFieldsIntoMap [schema] (docOfRaw lines []) = .error e := by
  have hwfall : ∀ p ∈ ("BEGIN".toList, ":VCARD".toList) :: lines, WfRawLine p := by
    intro p hp
    rcases List.mem_cons.mp hp with rfl | hp2
    · decide
    · exact hwf p hp2
  have hFnone : mapLookup (insertAll [] (("BEGIN".toList, ":VCARD".toList) :: lines)) F
      = none := by
    apply mapLookup_insertAll_none
    intro p hp
    rcases List.mem_cons.mp hp with rfl | hp2
    · simpa using fun hh => hFB hh.symm
    · exact hnoF p hp2
  unfold decodeVCardFieldsIntoMap
  rw [show docOfRaw lines [] =
      fieldLinesOf (("BEGIN".toList, ":VCARD".toList) :: lines) ++ ((expectedFooter ++ crlf) ++ [])
    from rfl]
  rw [parseFields_fieldLines _ [] [] hwfall]
  dsimp only
  cases hv : mapLookup (insertAll [] (("BEGIN".toList, ":VCARD".toList) :: lines)) versionKey with
  | none => exact ⟨.versionMissing, rfl⟩
  | some v0 =>
      dsimp only
      cases hs : ([schema] : List Schema).find? (fun sc => sc.version == v0.drop 1) with
      | none => exact ⟨.schemaNotProvided (v0.drop 1), rfl⟩
      | some sc =>
          have hsc : sc = schema := by
            have hmem2 := List.mem_of_find?_eq_some hs
            simpa using hmem2
          subst hsc
          dsimp only
          cases hr : sc.requiredFields.find? (fun req =>
              (mapLookup (insertAll [] (("BEGIN".toList, ":VCARD".toList) :: lines)) req).isNone) with
          | some req => exact ⟨.docMissingRequired req, rfl⟩
          | none =>
              exfalso
              rw [List.find?_eq_none] at hr
              exact hr F hF (by rw [hFnone]; rfl)

theorem encodeStruct_missing_required (b : Str) (smart : Bool) (nl : Str) (schema : Schema)
    (fields : List EncField) (F : Str)
    (hF : F ∈ schema.requiredFields)
    (h : ∀ f ∈ fields, f.fd.name ≠ F ∧ f.fd.tag ≠ F) :
    ∃ e, encodeStruct b smart nl schema fields = .error e := by
  unfold encodeStruct
  cases hr : schema.requiredFields.find? (fun req => !(structHasRequired fields req)) with
  | some req => exact ⟨.encMissingRequired req, rfl⟩
  | none =>
      exfalso
      rw [List.find?_eq_none] at hr
      apply hr F hF
      have : structHasRequired fields F = false := by
        unfold structHasRequired
        rw [Bool.or_eq_false_iff]
        constructor
        · rw [List.any_eq_false]
          intro f hf
          simpa using (h f hf).1
        · rw [List.any_eq_false]
          intro f hf
          simpa using (h f hf).2
      rw [this]
      rfl

theorem encodeMap_missing_required (b : Str) (smart : Bool) (nl : Str) (schema : Schema)
    (entries : List (Str × Str)) (F : Str)
    (hF : F ∈ schema.requiredFields)
    (h : ∀ p ∈ entries, p.1 ≠ F) :
    ∃ e, encodeMap b smart nl schema entries = .error e := by
  unfold encodeMap
  cases hr : schema.requiredFields.find? (fun req => !(entries.any (fun p => p.1 == req))) with
  | some req => exact ⟨.encMissingRequired req, rfl⟩
  | none =>
      exfalso
      rw [List.find?_eq_none] at hr
      apply hr F hF
      have : entries.any (fun p => p.1 == F) = false := by
        rw [List.any_eq_false]
        intro p hp
        simpa using h p hp
      rw [this]
      rfl

theorem decodeStruct_err (smart : Bool) (schemas : List Schema) (data : Str)
    (struc : GoStructStr) (e : VErr)
    (hhdr : ∃ s, decodeRecordHeader data = .ok s)
    (hf : decodeVCardFieldsIntoMap schemas data = .error e) :
    decodeStruct smart schemas data struc = (struc, .error e) := by
  obtain ⟨s0, hs0⟩ := hhdr
  unfold decodeStruct
  rw [hs0, hf]

theorem mapLookup_filter (m : RawMap) (pred : Str × Str → Bool) (k : Str)
    (hk : ∀ v, pred (k, v) = true) :
    mapLookup (m.filter pred) k = mapLookup m k := by
  induction m with
  | nil => rfl
  | cons p rest ih =>
      by_cases hp : p.1 = k
      · have hpk : pred p = true := by
          rw [show p = (k, p.2) by rw [← hp]]
          exact hk p.2
        rw [List.filter_cons_of_pos (by simpa using hpk)]
        simp only [mapLookup, if_pos hp, ih]
      · cases hpred : pred p with
        | true =>
            rw [List.filter_cons_of_pos (by simpa using hpred)]
            simp only [mapLookup, if_neg hp, ih]
        | false =>
            rw [List.filter_cons_of_neg (by simpa using hpred)]
            simp only [mapLookup, if_neg hp, ih]

theorem containsColon_eq_true_iff (s : Str) : containsColon s = true ↔ ':' ∈ s := by
  unfold containsColon
  rw [List.any_eq_true]
  constructor
  · rintro ⟨c, hc, hceq⟩
    have hce : c = ':' := by simpa using hceq
    rwa [hce] at hc
  · intro h
    exact ⟨':', h, by simp⟩

theorem containsColon_eq_false_iff (s : Str) : containsColon s = false ↔ ':' ∉ s := by
  rw [← Bool.not_eq_true, not_iff_not]
  exact containsColon_eq_true_iff s

def schemaAlex : Schema :=
  ⟨("4.0").toList,
    [("VERSION").toList, ("N").toList, ("FN").toList, ("NAME").toList],
    [("FN").toList]⟩

def docAlex : Str :=
  ("BEGIN:VCARD\r\nVERSION:4.0\r\nN:Alex\r\nFN:Alex FullName\r\nNAME:Alex Name Hello\r\nEND:VCARD\r\n").toList

/-- Claim C1: decoding the well-formed single-record document `docAlex` into a
non-nil `map[string]string` does fill the map with an entry for every schema
field key appearing among the document's field lines, but — contrary to the
claim — the returned error is not nil: the `fillMap` switch falls through to
the trailing unconditional `return vCardErrf("unable to decode into a map
where value has unsupported type ...")` even on the supported
`map[string]string` path, so `Decode` into a map always reports this error.
The error message itself (naming string as the type to use) and the test
`TestDecMapStringString` (which asserts exactly these map contents) show the
intended behaviour is a nil error: the missing `return nil` is a code bug. -/
theorem claim_C1_map_decode_fills_but_errors :
    decodeMap true [schemaAlex] docAlex ⟨false, []⟩ =
      (⟨false, [(("VERSION").toList, (":4.0").toList), (("N").toList, (":Alex").toList),
        (("FN").toList, (":Alex FullName").toList),
        (("NAME").toList, (":Alex Name Hello").toList)]⟩,
       .error .mapValueUnsupported) := by decide

/-- Claim C9: decoding into a slice-shaped target never runs the repeated
single-record procedure the claim describes: `Decoder.decode` dispatches slice
targets to `decodeSlice`, whose entire body is `panic("TODO: decodeSlice")`,
so every slice decode panics regardless of the input, the registered schemas
or the smart-string setting — although `Decode`'s documentation promises
slice support. -/
theorem claim_C9_slice_decode_panics (smart : Bool) (schemas : List Schema) (s : Str) :
    decodeValue smart schemas s .dslice = .panicked ("TODO: decodeSlice").toList := rfl

/-- Claim C8: when the same field key appears on several field lines of one
record, the accumulated raw map binds the key to the raw value suffix of the
latest such line, all earlier occurrences being discarded: the lookup of `k`
in the parsed map equals the value of the last line with key `k`
(`find?` over the reversed line list). -/
theorem claim_C8_last_write_wins (lines : List (Str × Str)) (rest : Str) (k : Str)
    (hwf : ∀ p ∈ lines, WfRawLine p) :
    ∃ M, parseFields (fieldLinesOf lines ++ ((expectedFooter ++ crlf) ++ rest)) [] =
        .ok (M, (expectedFooter ++ crlf) ++ rest) ∧
      mapLookup M k = (lines.reverse.find? (fun p => p.1 == k)).map Prod.snd := by
  refine ⟨insertAll [] lines, parseFields_fieldLines lines rest [] hwf, ?_⟩
  rw [mapLookup_insertAll]
  cases lines.reverse.find? (fun p => p.1 == k) <;> rfl

def dupLines : List (Str × Str) :=
  [(("N").toList, (":Alex").toList), (("FN").toList, (":x").toList),
   (("N").toList, (":Bob").toList)]

theorem claim_C8_witness :
    ∃ M, parseFields (fieldLinesOf dupLines ++ ((expectedFooter ++ crlf) ++ [])) [] =
        .ok (M, (expectedFooter ++ crlf) ++ []) ∧
      mapLookup M (("N").toList) = some ((":Bob").toList) := by
  obtain ⟨M, h1, h2⟩ := claim_C8_last_write_wins dupLines [] (("N").toList) (by decide)
  exact ⟨M, h1, by rw [h2]; decide⟩

/-- Claim C2: whenever encoding fails — for any source aggregate of the
modelled universe and any schema — nothing reaches the underlying writer
(`EncodeSchema` leaves the written bytes exactly as they were) and
`MarshalSchema` returns the empty byte slice together with the error.  This
holds because both encoders build the record into a local buffer and only
append it on success. -/
theorem claim_C2_encode_atomicity (v : EncVal) (schema : Schema) :
    (∀ w smart nl, (EncodeSchema w smart nl v schema).2.isSome = true →
      (EncodeSchema w smart nl v schema).1 = w) ∧
    ((MarshalSchema v schema).2.isSome = true → (MarshalSchema v schema).1 = []) := by
  constructor
  · intro w smart nl h
    cases henc : encodeValue [] smart nl schema v with
    | error e => simp [EncodeSchema, henc]
    | ok b =>
        exfalso
        simp [EncodeSchema, henc] at h
  · intro h
    cases hE : EncodeSchema [] true crlf v schema with
    | mk w2 e2 =>
        cases e2 with
        | none =>
            exfalso
            unfold MarshalSchema at h
            rw [hE] at h
            simp at h
        | some e =>
            unfold MarshalSchema
            rw [hE]

def telSchema : Schema :=
  ⟨("4.0").toList, [("N").toList, ("TEL").toList], [("N").toList, ("TEL").toList]⟩

def mapMissingTel : EncVal :=
  .vmapStr [(("N").toList, (":Alex;").toList), (("FN").toList, (":Alex FullName").toList)]

theorem claim_C2_witness :
    (EncodeSchema (("xyz").toList) true crlf mapMissingTel telSchema).2.isSome = true ∧
    (EncodeSchema (("xyz").toList) true crlf mapMissingTel telSchema).1 = ("xyz").toList ∧
    (MarshalSchema mapMissingTel telSchema).2.isSome = true ∧
    (MarshalSchema mapMissingTel telSchema).1 = [] := by
  refine ⟨by decide, ?_, by decide, ?_⟩
  · exact (claim_C2_encode_atomicity mapMissingTel telSchema).1 (("xyz").toList) true crlf
      (by decide)
  · exact (claim_C2_encode_atomicity mapMissingTel telSchema).2 (by decide)

/-- Claim C5: the encoder's per-line emission for a plain string field with
key `k` and value `s`, witnessed on a one-field struct source and a one-entry
map source.  In smart mode (the default) the line is `k` + `:` + `s` + EOL
exactly when `s` contains no `:` anywhere, and `k` + `s` + EOL verbatim when
`s` contains a `:` anywhere; in non-smart mode the line is always
`k` + `s` + EOL verbatim. -/
theorem claim_C5_smart_string_emission (k s nl : Str) (schema : Schema)
    (hk : k ∈ schema.fields) (hreq : schema.requiredFields = []) :
    ((':' ∉ s →
      encodeStruct [] true nl schema [⟨⟨k, []⟩, .fstr s⟩] =
        .ok (encodeRecordHeader [] nl schema.version ++
          ((k ++ (':' :: s) ++ nl) ++ (("END:VCARD").toList ++ nl)))) ∧
     (':' ∈ s →
      encodeStruct [] true nl schema [⟨⟨k, []⟩, .fstr s⟩] =
        .ok (encodeRecordHeader [] nl schema.version ++
          ((k ++ s ++ nl) ++ (("END:VCARD").toList ++ nl)))) ∧
     (encodeStruct [] false nl schema [⟨⟨k, []⟩, .fstr s⟩] =
        .ok (encodeRecordHeader [] nl schema.version ++
          ((k ++ s ++ nl) ++ (("END:VCARD").toList ++ nl))))) ∧
    ((':' ∉ s →
      encodeMap [] true nl schema [(k, s)] =
        .ok (encodeRecordHeader [] nl schema.version ++
          ((k ++ (':' :: s) ++ nl) ++ (("END:VCARD").toList ++ nl)))) ∧
     (':' ∈ s →
      encodeMap [] true nl schema [(k, s)] =
        .ok (encodeRecordHeader [] nl schema.version ++
          ((k ++ s ++ nl) ++ (("END:VCARD").toList ++ nl)))) ∧
     (encodeMap [] false nl schema [(k, s)] =
        .ok (encodeRecordHeader [] nl schema.version ++
          ((k ++ s ++ nl) ++ (("END:VCARD").toList ++ nl))))) := by
  have hreq2 : ∀ (smart : Bool), schema.requiredFields.find?
      (fun req => !(structHasRequired [⟨⟨k, []⟩, .fstr s⟩] req)) = none := by
    intro smart
    rw [hreq]
    rfl
  have hreq3 : schema.requiredFields.find?
      (fun req => !(([(k, s)] : List (Str × Str)).any (fun p => p.1 == req))) = none := by
    rw [hreq]
    rfl
  have hstruct : ∀ (smart : Bool), encodeStruct [] smart nl schema [⟨⟨k, []⟩, .fstr s⟩] =
      .ok (encodeRecordHeader [] nl schema.version ++
        (emitStrField smart nl k s ++ (("END:VCARD").toList ++ nl))) := by
    intro smart
    unfold encodeStruct
    rw [hreq2 smart, if_neg (by simp)]
    have hname : vCardName ⟨k, []⟩ = k := by simp [vCardName]
    simp only [encodeStructFold, hname, if_pos hk]
    simp [encodeRecordFooter, List.append_assoc]
  have hmap : ∀ (smart : Bool), encodeMap [] smart nl schema [(k, s)] =
      .ok (encodeRecordHeader [] nl schema.version ++
        (emitStrField smart nl k s ++ (("END:VCARD").toList ++ nl))) := by
    intro smart
    unfold encodeMap
    rw [hreq3, if_neg (by simp)]
    simp only [List.foldl_cons, List.foldl_nil, if_pos hk]
    simp [encodeRecordFooter, List.append_assoc]
  refine ⟨⟨?_, ?_, ?_⟩, ?_, ?_, ?_⟩
  · intro hns
    rw [hstruct true]
    have : containsColon s = false := (containsColon_eq_false_iff s).mpr hns
    simp [emitStrField, this, List.append_assoc]
  · intro hcs
    rw [hstruct true]
    have : containsColon s = true := (containsColon_eq_true_iff s).mpr hcs
    simp [emitStrField, this, List.append_assoc]
  · rw [hstruct false]
    simp [emitStrField, List.append_assoc]
  · intro hns
    rw [hmap true]
    have : containsColon s = false := (containsColon_eq_false_iff s).mpr hns
    simp [emitStrField, this, List.append_assoc]
  · intro hcs
    rw [hmap true]
    have : containsColon s = true := (containsColon_eq_true_iff s).mpr hcs
    simp [emitStrField, this, List.append_assoc]
  · rw [hmap false]
    simp [emitStrField, List.append_assoc]

def emitSchema : Schema := ⟨("4.0").toList, [("TEL").toList, ("N").toList], []⟩

theorem claim_C5_witness :
    (encodeStruct [] true crlf emitSchema [⟨⟨("N").toList, []⟩, .fstr ("Alex").toList⟩] =
      .ok (encodeRecordHeader [] crlf emitSchema.version ++
        (((("N").toList ++ (':' :: ("Alex").toList) ++ crlf)) ++ (("END:VCARD").toList ++ crlf)))) ∧
    (encodeMap [] true crlf emitSchema [(("TEL").toList, (";TYPE=CELL:555").toList)] =
      .ok (encodeRecordHeader [] crlf emitSchema.version ++
        (((("TEL").toList ++ (";TYPE=CELL:555").toList ++ crlf)) ++ (("END:VCARD").toList ++ crlf)))) ∧
    (encodeStruct [] false crlf emitSchema [⟨⟨("N").toList, []⟩, .fstr (":Alex").toList⟩] =
      .ok (encodeRecordHeader [] crlf emitSchema.version ++
        (((("N").toList ++ (":Alex").toList ++ crlf)) ++ (("END:VCARD").toList ++ crlf)))) := by
  refine ⟨?_, ?_, ?_⟩
  · exact (claim_C5_smart_string_emission ("N").toList ("Alex").toList crlf emitSchema
      (by decide) (by decide)).1.1 (by decide)
  · exact ((claim_C5_smart_string_emission ("TEL").toList (";TYPE=CELL:555").toList crlf
      emitSchema (by decide) (by decide)).2).2.1 (by decide)
  · exact ((claim_C5_smart_string_emission ("N").toList (":Alex").toList crlf emitSchema
      (by decide) (by decide)).1).2.2

theorem fillStruct_out_entries (smart : Bool) (struc : GoStructStr) (m : RawMap)
    (schema : Schema) (out : GoStructStr)
    (hok : fillStruct smart struc m schema = .ok out) :
    out = ⟨struc.fields.map (fillStructEntry smart m schema)⟩ := by
  unfold fillStruct at hok
  cases hr : schema.requiredFields.find?
      (fun req => !(struc.fields.any (fun fv => vCardName fv.1 == req))) with
  | some req =>
      rw [hr] at hok
      cases hok
  | none =>
      rw [hr] at hok
      injection hok with h
      exact h.symm

/-- Claim C6: in smart mode, when decoding into a struct target a plain
string field whose raw value suffix begins with `:` is stored with exactly
that one leading `:` removed, and a suffix not beginning with `:` is stored
verbatim; with smart strings disabled the suffix is stored verbatim including
its leading punctuation.  Stated for any struct field `i` whose vCard name is
a schema field and is bound in the raw record to the suffix `sf`. -/
theorem claim_C6_smart_strip_struct (smart : Bool) (struc : GoStructStr) (m : RawMap)
    (schema : Schema) (out : GoStructStr) (i : Nat) (f : GoField) (v sf : Str)
    (hok : fillStruct smart struc m schema = .ok out)
    (hi : struc.fields[i]? = some (f, v))
    (hschema : vCardName f ∈ schema.fields)
    (hlookup : mapLookup m (vCardName f) = some sf) :
    (smart = true → ∀ rest, sf = ':' :: rest → out.fields[i]? = some (f, rest)) ∧
    (smart = true → sf.head? ≠ some ':' → out.fields[i]? = some (f, sf)) ∧
    (smart = false → out.fields[i]? = some (f, sf)) := by
  have hout0 := fillStruct_out_entries smart struc m schema out hok
  subst hout0
  have hout : (struc.fields.map (fillStructEntry smart m schema))[i]? =
      some (fillStructEntry smart m schema (f, v)) := by
    rw [List.getElem?_map, hi]
    rfl
  have hentry : fillStructEntry smart m schema (f, v) = (f, fillStructField smart sf) := by
    unfold fillStructEntry
    dsimp only
    rw [if_pos hschema, hlookup]
  rw [hentry] at hout
  refine ⟨?_, ?_, ?_⟩
  · rintro rfl rest rfl
    simpa [fillStructField] using hout
  · rintro rfl hne
    have hsf : fillStructField true sf = sf := by
      unfold fillStructField
      cases sf with
      | nil => rfl
      | cons c t =>
          have hc : ¬ c = ':' := by
            intro hc
            exact hne (by rw [hc]; rfl)
          simp [hc]
    rwa [hsf] at hout
  · rintro rfl
    have hsf : fillStructField false sf = sf := rfl
    rwa [hsf] at hout

/-- Claim C7: frame conditions of struct decoding.  First, a struct field
whose vCard name is not a schema field, or is absent from the raw record,
keeps its previous (zero) value.  Second, raw-record keys for which the
struct declares no field (neither by name nor by rename tag) have no effect
at all: restricting the record to the declared vCard names yields the same
result.  Together: only fields declared by the struct, present in the schema
and present in the document are modified. -/
theorem claim_C7_struct_frame (smart : Bool) (struc : GoStructStr) (m : RawMap)
    (schema : Schema) (out : GoStructStr)
    (hok : fillStruct smart struc m schema = .ok out) :
    (∀ (i : Nat) (f : GoField) (v : Str), struc.fields[i]? = some (f, v) →
      (vCardName f ∉ schema.fields ∨ mapLookup m (vCardName f) = none) →
      out.fields[i]? = some (f, v)) ∧
    fillStruct smart struc
        (m.filter (fun p => struc.fields.any (fun fv => vCardName fv.1 == p.1))) schema =
      fillStruct smart struc m schema := by
  constructor
  · intro i f v hi hcond
    have hout0 := fillStruct_out_entries smart struc m schema out hok
    subst hout0
    have hout : (struc.fields.map (fillStructEntry smart m schema))[i]? =
        some (fillStructEntry smart m schema (f, v)) := by
      rw [List.getElem?_map, hi]
      rfl
    have hentry : fillStructEntry smart m schema (f, v) = (f, v) := by
      unfold fillStructEntry
      dsimp only
      rcases hcond with hnot | hnone
      · rw [if_neg hnot]
      · by_cases hin : vCardName f ∈ schema.fields
        · rw [if_pos hin, hnone]
        · rw [if_neg hin]
    rw [hentry] at hout
    exact hout
  · unfold fillStruct
    cases hr : schema.requiredFields.find?
        (fun req => !(struc.fields.any (fun fv => vCardName fv.1 == req))) with
    | some req => rfl
    | none =>
        refine congrArg Except.ok (congrArg GoStructStr.mk ?_)
        apply List.map_congr_left
        intro fv hfv
        unfold fillStructEntry
        dsimp only
        by_cases hin : vCardName fv.1 ∈ schema.fields
        · rw [if_pos hin, if_pos hin]
          rw [mapLookup_filter m (fun p => struc.fields.any (fun fv => vCardName fv.1 == p.1))
            (vCardName fv.1)
            (fun v => by rw [List.any_eq_true]; exact ⟨fv, hfv, by simp⟩)]
        · rw [if_neg hin, if_neg hin]

def strucN : GoStructStr := ⟨[(⟨("N").toList, []⟩, [])]⟩

def rawN : RawMap := [(("N").toList, (":Alex").toList)]

def schemaFrame : Schema := ⟨("4.0").toList, [("FN").toList, ("N").toList], []⟩

theorem claim_C6_witness :
    fillStruct true strucN rawN schemaFrame =
      .ok ⟨[(⟨("N").toList, []⟩, ("Alex").toList)]⟩ ∧
    (⟨[(⟨("N").toList, []⟩, ("Alex").toList)]⟩ : GoStructStr).fields[0]? =
      some (⟨("N").toList, []⟩, ("Alex").toList) := by
  refine ⟨by decide, ?_⟩
  exact (claim_C6_smart_strip_struct true strucN rawN schemaFrame
      ⟨[(⟨("N").toList, []⟩, ("Alex").toList)]⟩ 0 ⟨("N").toList, []⟩ [] ((":Alex").toList)
      (by decide) (by decide) (by decide) (by decide)).1 rfl (("Alex").toList) (by decide)

def strucFN : GoStructStr := ⟨[(⟨("FN").toList, []⟩, [])]⟩

def rawNoFN : RawMap := [(("N").toList, (":Alex").toList), (("HELLO").toList, (":World").toList)]

theorem claim_C7_witness :
    fillStruct true strucFN rawNoFN schemaFrame = .ok strucFN ∧
    strucFN.fields[0]? = some (⟨("FN").toList, []⟩, []) ∧
    fillStruct true strucFN
        (rawNoFN.filter (fun p => strucFN.fields.any (fun fv => vCardName fv.1 == p.1)))
        schemaFrame =
      fillStruct true strucFN rawNoFN schemaFrame := by
  refine ⟨by decide, ?_, ?_⟩
  · exact (claim_C7_struct_frame true strucFN rawNoFN schemaFrame strucFN (by decide)).1
      0 ⟨("FN").toList, []⟩ [] (by decide) (Or.inr (by decide))
  · exact (claim_C7_struct_frame true strucFN rawNoFN schemaFrame strucFN (by decide)).2

def schemaBEGINreq : Schema :=
  ⟨("4.0").toList, [("BEGIN").toList, ("VERSION").toList], [("BEGIN").toList]⟩

def docNoBeginField : Str := ("BEGIN:VCARD\r\nVERSION:4.0\r\nEND:VCARD\r\n").toList

/-- Claim C3 counterexample: `BEGIN` is a schema-required field, the
document's field lines (only `VERSION:4.0`) do not include `BEGIN`, yet
decoding into a struct declaring a `BEGIN` field succeeds with no error —
because `decodeStruct` hands the unstripped record text to the field parser,
the `BEGIN:VCARD` header line itself is parsed as a field line and satisfies
the required-field check (and even populates the struct field with `VCARD`). -/
theorem claim_C3_counterexample :
    ("BEGIN").toList ∈ schemaBEGINreq.requiredFields ∧
    decodeStruct true [schemaBEGINreq] docNoBeginField ⟨[(⟨("BEGIN").toList, []⟩, [])]⟩ =
      (⟨[(⟨("BEGIN").toList, []⟩, ("VCARD").toList)]⟩, .ok []) := by decide

/-- Claim C3 (amended): required-field enforcement is symmetric, with one
decode-side exception.  Encoding a struct with no slot for a required field
`F` (no field named `F` and no field tagged `F`) fails, and encoding a map
with no key `F` fails, for every required `F`.  Decoding a well-formed
document whose field lines do not include `F` fails for every required
`F` other than `BEGIN` (a required `BEGIN` is satisfied by the header line
itself, see the counterexample). -/
theorem claim_C3_required_symmetric (schema : Schema) (F : Str)
    (hF : F ∈ schema.requiredFields) :
    (∀ (b : Str) (smart : Bool) (nl : Str) (fields : List EncField),
      (∀ f ∈ fields, f.fd.name ≠ F ∧ f.fd.tag ≠ F) →
      ∃ e, encodeStruct b smart nl schema fields = .error e) ∧
    (∀ (b : Str) (smart : Bool) (nl : Str) (entries : List (Str × Str)),
      (∀ p ∈ entries, p.1 ≠ F) →
      ∃ e, encodeMap b smart nl schema entries = .error e) ∧
    (F ≠ ("BEGIN").toList →
      ∀ (smart : Bool) (lines : List (Str × Str)) (struc : GoStructStr),
        (∀ p ∈ lines, WfRawLine p) → (∀ p ∈ lines, p.1 ≠ F) →
        ∃ e, decodeStruct smart [schema] (docOfRaw lines []) struc = (struc, .error e)) := by
  refine ⟨?_, ?_, ?_⟩
  · intro b smart nl fields h
    exact encodeStruct_missing_required b smart nl schema fields F hF h
  · intro b smart nl entries h
    exact encodeMap_missing_required b smart nl schema entries F hF h
  · intro hFB smart lines struc hwf hnoF
    obtain ⟨e, he⟩ := decodeVCardFields_missing_required schema F lines hF hFB hwf hnoF
    exact ⟨e, decodeStruct_err smart [schema] (docOfRaw lines []) struc e
      (decodeRecordHeader_docOfRaw lines []) he⟩

theorem claim_C3_witness :
    (∃ e, encodeStruct [] true crlf telSchema
        [⟨⟨("N").toList, []⟩, .fstr ("Alex").toList⟩] = .error e) ∧
    (∃ e, encodeMap [] true crlf telSchema [(("N").toList, (":Alex").toList)] = .error e) ∧
    (∃ e, decodeStruct true [telSchema]
        (docOfRaw [(("VERSION").toList, (":4.0").toList), (("N").toList, (":Alex").toList)] [])
        strucN = (strucN, .error e)) := by
  obtain ⟨h1, h2, h3⟩ := claim_C3_required_symmetric telSchema (("TEL").toList) (by decide)
  exact ⟨h1 [] true crlf [⟨⟨("N").toList, []⟩, .fstr ("Alex").toList⟩] (by decide),
    h2 [] true crlf [(("N").toList, (":Alex").toList)] (by decide),
    h3 (by decide) true
      [(("VERSION").toList, (":4.0").toList), (("N").toList, (":Alex").toList)]
      strucN (by decide) (by decide)⟩

def schemaFN : Schema := ⟨("4.0").toList, [("VERSION").toList, ("FN").toList], [("FN").toList]⟩

def docFNtrail : Str := ("BEGIN:VCARD\r\nVERSION:4.0\r\nFN:a \r\nEND:VCARD\r\n").toList

/-- Claim C4 counterexample: the struct whose only plain-string field `FN`
holds `"a "` (no `:` anywhere, every schema-required field populated) encodes
successfully under smart-string defaults, and decoding the encoding succeeds
— but the decoded `FN` is `"a"`, not `"a "`: the line parser trims trailing
whitespace off every field line, so `decode(encode(x)) ≠ x`. -/
theorem claim_C4_counterexample :
    MarshalSchema (.vstruct [⟨⟨("FN").toList, []⟩, .fstr ("a ").toList⟩]) schemaFN =
      (docFNtrail, none) ∧
    decodeStruct true [schemaFN] docFNtrail ⟨[(⟨("FN").toList, []⟩, [])]⟩ =
      (⟨[(⟨("FN").toList, []⟩, ("a").toList)]⟩, .ok []) ∧
    ("a").toList ≠ ("a ").toList := by decide

/-- Claim C4 (amended): with smart strings on both sides and the default CRLF
terminator, `decode(encode(x)) = x` for a struct of plain string fields
provided additionally that each declared key is a non-empty all-letter name
other than `END` and `VERSION`, the keys are pairwise distinct and all belong
to the schema's field set, every schema-required field is among them, and
each value (and the schema version string) contains no `:` and no newline and
does not end in a whitespace character — the restrictions forced by the
line-oriented trimming parser (see the counterexample for trailing
whitespace). -/
theorem claim_C4_roundtrip (schema : Schema) (xs : List (Str × Str))
    (hkey : ∀ p ∈ xs, p.1 ≠ [] ∧ p.1.all goIsLetter = true ∧
      p.1 ≠ ("END").toList ∧ p.1 ≠ versionKey)
    (hval : ∀ p ∈ xs, ':' ∉ p.2 ∧ '\n' ∉ p.2 ∧
      p.2.getLast?.all (fun c => !(goIsSpace c)) = true)
    (hnd : (xs.map Prod.fst).Nodup)
    (hmem : ∀ p ∈ xs, p.1 ∈ schema.fields)
    (hreq : ∀ req ∈ schema.requiredFields, req ∈ xs.map Prod.fst)
    (hver : '\n' ∉ schema.version ∧
      schema.version.getLast?.all (fun c => !(goIsSpace c)) = true) :
    MarshalSchema (.vstruct (xs.map (fun p => ⟨⟨p.1, []⟩, .fstr p.2⟩))) schema =
      (docOf schema.version (xs.map (fun p => (p.1, ':' :: p.2))), none) ∧
    decodeStruct true [schema] (docOf schema.version (xs.map (fun p => (p.1, ':' :: p.2))))
        ⟨xs.map (fun p => (⟨p.1, []⟩, []))⟩ =
      (⟨xs.map (fun p => (⟨p.1, []⟩, p.2))⟩, .ok []) := by
  have hwfgen : ∀ (k v : Str), k ≠ [] → k.all goIsLetter = true → k ≠ ("END").toList →
      '\n' ∉ v → v.getLast?.all (fun c => !(goIsSpace c)) = true →
      WfRawLine (k, ':' :: v) := by
    intro k v h1 h2 h3 h5 h6
    refine ⟨h1, h2, h3, by simp, rfl, ?_, ?_⟩
    · intro hmem2
      rcases List.mem_cons.mp hmem2 with heq | ht
      · exact absurd heq (by decide)
      · exact h5 ht
    · cases hv : v with
      | nil => rfl
      | cons a b =>
          rw [List.getLast?_cons_cons]
          rw [hv] at h6
          exact h6
  have hwf : ∀ p2 ∈ xs.map (fun p => (p.1, ':' :: p.2)), WfRawLine p2 := by
    intro p2 hp2
    obtain ⟨p, hp, rfl⟩ := List.mem_map.mp hp2
    obtain ⟨hk1, hk2, hk3, hk4⟩ := hkey p hp
    obtain ⟨hv1, hv2, hv3⟩ := hval p hp
    exact hwfgen p.1 p.2 hk1 hk2 hk3 hv2 hv3
  have hwfv : WfRawLine (versionKey, ':' :: schema.version) :=
    hwfgen versionKey schema.version (by decide) (by decide) (by decide) hver.1 hver.2
  have hnover : ∀ p2 ∈ xs.map (fun p => (p.1, ':' :: p.2)), p2.1 ≠ versionKey := by
    intro p2 hp2
    obtain ⟨p, hp, rfl⟩ := List.mem_map.mp hp2
    exact (hkey p hp).2.2.2
  have hreqlines : ∀ req ∈ schema.requiredFields,
      req ∈ (xs.map (fun p => (p.1, ':' :: p.2))).map Prod.fst := by
    intro req hr
    rw [List.map_map]
    exact hreq req hr
  constructor
  · exact MarshalSchema_strings schema xs hreq hmem
      (fun p hp => (containsColon_eq_false_iff p.2).mpr (hval p hp).1)
  · have hdecode := decodeStruct_doc true schema (xs.map (fun p => (p.1, ':' :: p.2)))
      ⟨xs.map (fun p => (⟨p.1, []⟩, []))⟩ [] hwf hwfv hnover hreqlines
    rw [List.append_nil] at hdecode
    rw [hdecode, fillStruct_roundtrip schema xs hmem hnd hreq]
    simp [trimSpace]

def xsRT : List (Str × Str) :=
  [(("N").toList, ("Alex").toList), (("FN").toList, ("Alex FullName").toList)]

def rtSchema : Schema := ⟨("4.0").toList, [("N").toList, ("FN").toList], [("FN").toList]⟩

theorem claim_C4_witness :
    MarshalSchema (.vstruct (xsRT.map (fun p => ⟨⟨p.1, []⟩, .fstr p.2⟩))) rtSchema =
      (docOf rtSchema.version (xsRT.map (fun p => (p.1, ':' :: p.2))), none) ∧
    decodeStruct true [rtSchema] (docOf rtSchema.version (xsRT.map (fun p => (p.1, ':' :: p.2))))
        ⟨xsRT.map (fun p => (⟨p.1, []⟩, []))⟩ =
      (⟨xsRT.map (fun p => (⟨p.1, []⟩, p.2))⟩, .ok []) :=
  claim_C4_roundtrip rtSchema xsRT (by decide) (by decide) (by decide) (by decide)
    (by decide) (by decide)

/-- Claim C10: when decoding a well-formed document into a
`map[string]string`, the stored values are the raw value suffixes verbatim,
leading punctuation included — the entry for a field line `k:v` is `k ↦ ":v"`
and `VERSION` maps to `:` followed by the version string — for every value of
the smart-string flag: the leading-`:` stripping exists only on the struct
path, never for map values. -/
theorem claim_C10_map_values_verbatim (smart : Bool) (schema : Schema)
    (lines : List (Str × Str)) (m0 : RawMap)
    (hwf : ∀ p ∈ lines, WfRawLine p)
    (hwfv : WfRawLine (versionKey, ':' :: schema.version))
    (hnover : ∀ p ∈ lines, p.1 ≠ versionKey)
    (hreq : ∀ req ∈ schema.requiredFields, req ∈ lines.map Prod.fst)
    (hnd : (lines.map Prod.fst).Nodup) :
    ∀ (k sfx : Str), (k, sfx) ∈ (versionKey, ':' :: schema.version) :: lines →
      k ∈ schema.fields →
      mapLookup (decodeMap smart [schema] (docOf schema.version lines)
          ⟨false, m0⟩).1.entries k = some sfx := by
  intro k sfx hmem hk
  have hdoc : docOf schema.version lines = docOf schema.version lines ++ [] := by simp
  rw [hdoc, decodeMap_doc smart schema lines m0 [] hwf hwfv hnover hreq]
  dsimp only
  rw [mapLookup_fillMapStringCase]
  have hlook : mapLookup (insertAll [] (recLines schema.version lines)) k = some sfx := by
    rcases List.mem_cons.mp hmem with heq | huser
    · injection heq with h1 h2
      subst h1
      subst h2
      exact lookup_recLines_version schema.version lines hnover
    · exact lookup_recLines_user schema.version lines k sfx hnd huser
  rw [if_pos ⟨hk, by rw [hlook]; rfl⟩, hlook]

def linesC10 : List (Str × Str) :=
  [(("N").toList, (":Alex").toList), (("FN").toList, (":Alex FullName").toList)]

theorem claim_C10_witness :
    mapLookup (decodeMap true [schemaAlex] (docOf schemaAlex.version linesC10)
        ⟨false, []⟩).1.entries (("N").toList) = some ((":Alex").toList) ∧
    mapLookup (decodeMap true [schemaAlex] (docOf schemaAlex.version linesC10)
        ⟨false, []⟩).1.entries (("VERSION").toList) = some ((":4.0").toList) := by
  constructor
  · exact claim_C10_map_values_verbatim true schemaAlex linesC10 [] (by decide) (by decide)
      (by decide) (by decide) (by decide) (("N").toList) ((":Alex").toList)
      (by decide) (by decide)
  · exact claim_C10_map_values_verbatim true schemaAlex linesC10 [] (by decide) (by decide)
      (by decide) (by decide) (by decide) (("VERSION").toList) ((":4.0").toList)
      (by decide) (by decide)
